import Mathlib

/-!
Verification of the persistent map in `internal/ps/map.go`.

The Go code implements a persistent (path-copying) associative array: an
8-ary tree routed by successive 3-bit digits of a 64-bit FNV-1a hash of the
string key.  We embed the code twice:

* a pure value-level embedding (`Tree`), where the canonical sentinel node
  `nilMap` is the constructor `Tree.nil` and the `panic` in
  `deleteLeftmost` is modelled by `Option`;
* a heap-level embedding (`HNode`/`Heap`), where nodes live at addresses in
  an allocation list and the sentinel is address `0`, used to verify the
  aliasing/frame properties (path copying never writes a published node).
-/

set_option maxHeartbeats 1000000

namespace PS

/-- Node of the tree in `internal/ps/map.go`.  `nil` is the canonical
sentinel `nilMap`; `node` carries the fields `count`, `hash`, `key`,
`value` and the array of eight `children`. -/
inductive Tree (V : Type) where
  | nil : Tree V
  | node (count : Nat) (hash : Nat) (key : String) (value : V)
      (children : Fin 8 → Tree V) : Tree V

variable {V : Type}

/-- `IsNil`: Go compares the pointer with the global `nilMap`. -/
def Tree.isNil : Tree V → Bool
  | .nil => true
  | .node _ _ _ _ _ => false

/-- `Size` returns the stored `count` field; the sentinel stores `0`. -/
def Tree.size : Tree V → Nat
  | .nil => 0
  | .node c _ _ _ _ => c

/-- `isLeaf` from the source: `t.Size() == 1`. -/
def Tree.isLeaf (t : Tree V) : Bool := t.size == 1

/-- The `children` array of a node.  The sentinel's children all point at
the sentinel itself (set up by `init` in the source). -/
def Tree.childrenOf : Tree V → Fin 8 → Tree V
  | .nil => fun _ => .nil
  | .node _ _ _ _ ch => ch

/-- FNV-1a 64-bit offset basis (`offset64` in the source). -/
def offset64 : Nat := 14695981039346656037

/-- FNV-1a 64-bit prime (`prime64` in the source). -/
def prime64 : Nat := 1099511628211

/-- `hashKey`: FNV-1a over the code points of the key; Go's `uint64`
arithmetic is `% 2 ^ 64`. -/
def hashKey (key : String) : Nat :=
  key.data.foldl (fun hash c => ((hash ^^^ c.toNat) * prime64) % 2 ^ 64) offset64

/-- The child index `partialHash % childCount` used on descent. -/
def digit (partialHash : Nat) : Fin 8 :=
  ⟨partialHash % 8, Nat.mod_lt _ (by norm_num)⟩

/-- Sum of the `count` fields of the eight children: the loop of
`recalculateCount`; the function itself then stores this plus one. -/
def sumSizes (ch : Fin 8 → Tree V) : Nat := ∑ i : Fin 8, (ch i).size

/-- `setLowLevel` from the source.  The three branches: the sentinel is
replaced by a fresh leaf; a node with a different hash is cloned with the
selected child updated and its count recalculated; a node with the same
hash is cloned with only the value replaced. -/
def setLowLevel : Tree V → Nat → Nat → String → V → Tree V
  | .nil, _, hash, key, value => .node 1 hash key value fun _ => .nil
  | .node count h k v ch, partialHash, hash, key, value =>
    if hash ≠ h then
      let i := digit partialHash
      let ch' := Function.update ch i
        (setLowLevel (ch i) (partialHash >>> 3) hash key value)
      .node (sumSizes ch' + 1) h k v ch'
    else
      .node count h k value ch

/-- `Set`: computes the hash once and passes it both as the routing value
and as the comparison value. -/
def Tree.set (t : Tree V) (key : String) (value : V) : Tree V :=
  setLowLevel t (hashKey key) (hashKey key) key value

/-- `lookupLowLevel`; Go's `(nil, false)` is `none` and `(v, true)` is
`some v`. -/
def lookupLowLevel : Tree V → Nat → Nat → Option V
  | .nil, _, _ => none
  | .node _ h _ v ch, partialHash, hash =>
    if hash ≠ h then
      lookupLowLevel (ch (digit partialHash)) (partialHash >>> 3) hash
    else
      some v

/-- `Lookup`. -/
def Tree.lookup (t : Tree V) (key : String) : Option V :=
  lookupLowLevel t (hashKey key) (hashKey key)

/-- `deleteLeftmost`: returns the deleted node and the remaining subtree.
The `panic` branch (a non-leaf node all of whose children are the
sentinel, which includes the sentinel itself) is `none`. -/
def deleteLeftmost : Tree V → Option (Tree V × Tree V)
  | .nil => none
  | .node c h k v ch =>
    if (Tree.node c h k v ch).isLeaf then some (.node c h k v ch, .nil)
    else
      match (List.finRange 8).find? (fun i => !(ch i).isNil) with
      | none => none
      | some i =>
        match deleteLeftmost (ch i) with
        | none => none
        | some (deleted, child) =>
          let ch' := Function.update ch i child
          some (deleted, .node (sumSizes ch' + 1) h k v ch')

/-- The argmax loop of `deleteLowLevel`: index of the first child with the
strictly largest count, starting from `i = -1, size = -1`. -/
def argmaxChild (ch : Fin 8 → Tree V) : Fin 8 :=
  ((List.finRange 8).foldl
    (fun p j => if ((ch j).size : Int) > p.2 then (j, ((ch j).size : Int)) else p)
    ((0 : Fin 8), (-1 : Int))).1

/-- `deleteLowLevel`.  A failed `deleteLeftmost` (the panic) propagates as
`none`; `deleteLeftmost` can only return the sentinel as the deleted node
on a path that never happens, which is also mapped to `none`. -/
def deleteLowLevel : Tree V → Nat → Nat → Option (Tree V × Bool)
  | .nil, _, _ => some (.nil, false)
  | .node c h k v ch, partialHash, hash =>
    if hash ≠ h then
      let i := digit partialHash
      match deleteLowLevel (ch i) (partialHash >>> 3) hash with
      | none => none
      | some (child, found) =>
        if !found then some (.node c h k v ch, false)
        else
          let ch' := Function.update ch i child
          some (.node (sumSizes ch' + 1) h k v ch', true)
    else if (Tree.node c h k v ch).isLeaf then some (.nil, true)
    else
      let i := argmaxChild ch
      match deleteLeftmost (ch i) with
      | none => none
      | some (replacement, child) =>
        match replacement with
        | .nil => none
        | .node _ rh rk rv _ =>
          let ch' := Function.update ch i child
          some (.node (sumSizes ch' + 1) rh rk rv ch', true)

/-- `Delete` drops the `found` flag of `deleteLowLevel`. -/
def Tree.delete (t : Tree V) (key : String) : Option (Tree V) :=
  (deleteLowLevel t (hashKey key) (hashKey key)).map (·.1)

/-- The sequence of `(key, value)` pairs passed to the callback by
`ForEach`: the node's own entry first, then each non-sentinel child
recursively, in index order. -/
def Tree.toList : Tree V → List (String × V)
  | .nil => []
  | .node _ _ k v ch =>
    (k, v) :: ((List.finRange 8).map
      (fun i => if (ch i).isNil then [] else (ch i).toList)).flatten

/-- `Keys`: allocates `Size()` slots and writes each visited key at the
running index.  A write past the end of the slice (Go would panic) is
`none`; Go never reads back, so slots the traversal does not reach keep
the zero value `""`. -/
def Tree.keys (t : Tree V) : Option (List String) :=
  ((t.toList).foldl
    (fun acc kv =>
      match acc with
      | none => none
      | some (arr, i) => if i < arr.length then some (arr.set i kv.1, i + 1) else none)
    (some (List.replicate t.size "", 0))).map (·.1)

/-- `NewMap` returns the sentinel. -/
def newMap : Tree V := .nil

/-! ## Invariants of the data model -/

/-- Count correctness: every node's `count` field is one plus the sum of
its children's counts, the quantity `recalculateCount` stores. -/
def CountOk : Tree V → Prop
  | .nil => True
  | .node c _ _ _ ch => c = sumSizes ch + 1 ∧ ∀ i, CountOk (ch i)

def decCountOk : (t : Tree V) → Decidable (CountOk t)
  | .nil => isTrue trivial
  | .node c _ _ _ ch =>
    haveI : ∀ i : Fin 8, Decidable (CountOk (ch i)) := fun i => decCountOk (ch i)
    inferInstanceAs (Decidable (c = sumSizes ch + 1 ∧ ∀ i, CountOk (ch i)))

instance (t : Tree V) : Decidable (CountOk t) := decCountOk t

/-- Every stored hash is the hash of the stored key (entries are only ever
created by `Set`, which passes `hashKey key` alongside `key`). -/
def HashOk : Tree V → Prop
  | .nil => True
  | .node _ h k _ ch => h = hashKey k ∧ ∀ i, HashOk (ch i)

def decHashOk : (t : Tree V) → Decidable (HashOk t)
  | .nil => isTrue trivial
  | .node _ h k _ ch =>
    haveI : ∀ i : Fin 8, Decidable (HashOk (ch i)) := fun i => decHashOk (ch i)
    inferInstanceAs (Decidable (h = hashKey k ∧ ∀ i, HashOk (ch i)))

instance (t : Tree V) : Decidable (HashOk t) := decHashOk t

/-- Placement: a node at depth `d` reached by the digit path encoded by
`pre` (so `pre < 8 ^ d`) stores a hash whose low `d` digits are that path,
and child `i` extends the path by digit `i`. -/
def Placement : Tree V → Nat → Nat → Prop
  | .nil, _, _ => True
  | .node _ h _ _ ch, d, pre =>
    h % 8 ^ d = pre ∧ ∀ i : Fin 8, Placement (ch i) (d + 1) (pre + i.val * 8 ^ d)

def decPlacement : (t : Tree V) → (d pre : Nat) → Decidable (Placement t d pre)
  | .nil, _, _ => isTrue trivial
  | .node _ h _ _ ch, d, pre =>
    haveI : ∀ i : Fin 8, Decidable (Placement (ch i) (d + 1) (pre + i.val * 8 ^ d)) :=
      fun i => decPlacement (ch i) (d + 1) (pre + i.val * 8 ^ d)
    inferInstanceAs (Decidable (h % 8 ^ d = pre ∧ ∀ i : Fin 8, Placement (ch i) (d + 1) (pre + i.val * 8 ^ d)))

instance (t : Tree V) (d pre : Nat) : Decidable (Placement t d pre) := decPlacement t d pre

/-- Multiset of the `hash` fields of all entries in the tree. -/
def hashesOf : Tree V → Multiset Nat
  | .nil => 0
  | .node _ h _ _ ch => h ::ₘ ∑ i : Fin 8, hashesOf (ch i)

/-- Well-formed maps: those produced by `NewMap`, `Set` and `Delete`. -/
def WF (t : Tree V) : Prop :=
  CountOk t ∧ HashOk t ∧ Placement t 0 0 ∧ (hashesOf t).Nodup

instance (t : Tree V) : Decidable (WF t) := inferInstanceAs (Decidable (_ ∧ _))

/-! ## Path arithmetic

During descent at depth `d` the code carries `partialHash = hash >>> (3*d)`
and selects child `partialHash % 8`; `pre = hash % 8 ^ d` encodes the digit
path taken so far. -/

/-- Relation between the two hash arguments of the low-level functions at
depth `d` on the descent path `pre`. -/
def OnPath (d pre h ph : Nat) : Prop :=
  ph = h >>> (3 * d) ∧ h % 8 ^ d = pre ∧ pre < 8 ^ d

theorem onPath_root (h : Nat) : OnPath 0 0 h h := by
  refine ⟨by simp, by simp [Nat.mod_one], by norm_num⟩

theorem shiftRight_mul3 (h d : Nat) : h >>> (3 * d) = h / 8 ^ d := by
  rw [Nat.shiftRight_eq_div_pow, pow_mul]
  norm_num

theorem onPath_step {d pre h ph : Nat} (hp : OnPath d pre h ph) :
    OnPath (d + 1) (pre + (digit ph).val * 8 ^ d) h (ph >>> 3) := by
  obtain ⟨hsh, hmod, hlt⟩ := hp
  have hdig : (digit ph).val = h / 8 ^ d % 8 := by
    simp [digit, hsh, shiftRight_mul3]
  refine ⟨?_, ?_, ?_⟩
  · rw [hsh, Nat.shiftRight_eq_div_pow, Nat.shiftRight_eq_div_pow,
      Nat.shiftRight_eq_div_pow, Nat.div_div_eq_div_mul, ← pow_add]
    ring_nf
  · rw [Nat.mod_pow_succ, hmod, hdig]
    ring
  · have h1 : (digit ph).val * 8 ^ d ≤ 7 * 8 ^ d := by
      have : (digit ph).val ≤ 7 := Nat.lt_succ_iff.mp (digit ph).isLt
      exact Nat.mul_le_mul_right _ this
    have : pre + (digit ph).val * 8 ^ d < 8 ^ d + 7 * 8 ^ d := by omega
    calc pre + (digit ph).val * 8 ^ d < 8 ^ d + 7 * 8 ^ d := this
      _ = 8 ^ (d + 1) := by ring


/-! ## Basic lemmas -/

theorem isNil_iff {t : Tree V} : t.isNil = true ↔ t = .nil := by
  cases t <;> simp [Tree.isNil]

theorem isNil_false_iff {t : Tree V} : t.isNil = false ↔ t ≠ .nil := by
  cases t <;> simp [Tree.isNil]

theorem card_multiset_sum {ι : Type} [DecidableEq ι] (s : Finset ι) (f : ι → Multiset Nat) :
    Multiset.card (∑ i ∈ s, f i) = ∑ i ∈ s, Multiset.card (f i) := by
  induction s using Finset.induction with
  | empty => simp
  | insert h ih => simp [Finset.sum_insert h, ih]

/-- Under the count invariant, `Size` is the number of stored entries. -/
theorem CountOk.size_eq_card : ∀ {t : Tree V}, CountOk t → t.size = (hashesOf t).card := by
  intro t
  induction t with
  | nil => intro _; simp [Tree.size, hashesOf]
  | node c h k v ch ih =>
    intro hok
    obtain ⟨hc, hch⟩ := hok
    simp only [Tree.size, hashesOf, Multiset.card_cons, card_multiset_sum]
    rw [hc]
    simp only [sumSizes]
    congr 1
    exact Finset.sum_congr rfl fun i _ => ih i (hch i)

/-- Under the count invariant a subtree of size `0` is the sentinel. -/
theorem CountOk.eq_nil_of_size_zero : ∀ {t : Tree V}, CountOk t → t.size = 0 → t = .nil := by
  intro t
  cases t with
  | nil => intro _ _; rfl
  | node c h k v ch =>
    intro hok hsz
    obtain ⟨hc, _⟩ := hok
    simp [Tree.size] at hsz
    omega

/-- All hashes stored in a subtree on path `pre` at depth `d` are congruent
to `pre` modulo `8 ^ d`. -/
theorem Placement.mem_mod : ∀ {t : Tree V} {d pre : Nat}, Placement t d pre → pre < 8 ^ d →
    ∀ x ∈ hashesOf t, x % 8 ^ d = pre := by
  intro t
  induction t with
  | nil => intro d pre _ _ x hx; simp [hashesOf] at hx
  | node c h k v ch ih =>
    intro d pre hpl hlt x hx
    obtain ⟨hh, hch⟩ := hpl
    simp only [hashesOf, Multiset.mem_cons] at hx
    rcases hx with rfl | hx
    · exact hh
    · rw [Multiset.mem_sum] at hx
      obtain ⟨i, _, hi⟩ := hx
      have hpre' : pre + i.val * 8 ^ d < 8 ^ (d + 1) := by
        have : i.val ≤ 7 := Nat.lt_succ_iff.mp i.isLt
        have : i.val * 8 ^ d ≤ 7 * 8 ^ d := Nat.mul_le_mul_right _ this
        calc pre + i.val * 8 ^ d < 8 ^ d + 7 * 8 ^ d := by omega
          _ = 8 ^ (d + 1) := by ring
      have hx1 : x % 8 ^ (d + 1) = pre + i.val * 8 ^ d := ih i (hch i) hpre' x hi
      have : x % 8 ^ (d + 1) % 8 ^ d = x % 8 ^ d :=
        Nat.mod_mod_of_dvd x (pow_dvd_pow 8 (Nat.le_succ d))
      rw [← this, hx1, Nat.add_mul_mod_self_right, Nat.mod_eq_of_lt hlt]

/-! ## C1: Set then Lookup -/

theorem lookup_setLowLevel : ∀ (t : Tree V) (ph h : Nat) (k : String) (v : V),
    lookupLowLevel (setLowLevel t ph h k v) ph h = some v := by
  intro t
  induction t with
  | nil => intro ph h k v; simp [setLowLevel, lookupLowLevel]
  | node c h0 k0 v0 ch ih =>
    intro ph h k v
    by_cases hh : h = h0
    · subst hh
      simp [setLowLevel, lookupLowLevel]
    · simp only [setLowLevel, lookupLowLevel, if_pos hh, if_neg, ne_eq,
        not_true_eq_false, not_false_eq_true]
      rw [Function.update_same]
      exact ih _ _ h k v

/-- C1: for every map `m`, key `k` and value `v`, `Lookup k` on the map
returned by `m.Set(k, v)` returns `(v, true)`. -/
theorem lookup_after_set (m : Tree V) (k : String) (v : V) :
    (m.set k v).lookup k = some v :=
  lookup_setLowLevel m _ _ k v

/-! ## Sums over an updated child array -/

theorem sum_update_erase {M : Type} [AddCommMonoid M] (G : Tree V → M)
    (ch : Fin 8 → Tree V) (i : Fin 8) (a : Tree V) :
    ∑ j : Fin 8, G (Function.update ch i a j) =
      G a + ∑ j ∈ Finset.univ.erase i, G (ch j) := by
  have h1 : ∀ j : Fin 8, G (Function.update ch i a j) =
      Function.update (fun j => G (ch j)) i (G a) j := by
    intro j
    by_cases hj : j = i
    · subst hj; simp [Function.update_same]
    · simp [Function.update_noteq hj]
  rw [Finset.sum_congr rfl fun j _ => h1 j,
    Finset.sum_update_of_mem (Finset.mem_univ i)]
  rw [Finset.sdiff_singleton_eq_erase]

theorem sum_eq_add_erase {M : Type} [AddCommMonoid M] (G : Tree V → M)
    (ch : Fin 8 → Tree V) (i : Fin 8) :
    ∑ j : Fin 8, G (ch j) = G (ch i) + ∑ j ∈ Finset.univ.erase i, G (ch j) :=
  (Finset.add_sum_erase _ _ (Finset.mem_univ i)).symm

/-! ## Effect of Set on the stored hashes -/

theorem hashesOf_setLowLevel_not_mem :
    ∀ (t : Tree V) (ph h : Nat) (k : String) (v : V), h ∉ hashesOf t →
      hashesOf (setLowLevel t ph h k v) = h ::ₘ hashesOf t := by
  intro t
  induction t with
  | nil => intro ph h k v _; simp [setLowLevel, hashesOf]
  | node c h0 k0 v0 ch ih =>
    intro ph h k v hmem
    simp only [hashesOf, Multiset.mem_cons, not_or, Multiset.mem_sum] at hmem
    obtain ⟨hne, hnotsum⟩ := hmem
    have hni : h ∉ hashesOf (ch (digit ph)) := by
      intro hcon
      exact hnotsum ⟨digit ph, Finset.mem_univ _, hcon⟩
    simp only [setLowLevel, if_pos hne, hashesOf]
    rw [sum_update_erase hashesOf ch (digit ph), ih _ _ h k v hni,
      sum_eq_add_erase hashesOf ch (digit ph)]
    simp only [← Multiset.singleton_add]
    abel

/-- The digit path of a hash already stored in a placed subtree coincides
with the descent: an occurrence of `h` below a node forces it into the
child the code recurses into. -/
theorem mem_child_eq_digit {ch : Fin 8 → Tree V} {d pre h ph : Nat} {j : Fin 8}
    (hch : ∀ i : Fin 8, Placement (ch i) (d + 1) (pre + i.val * 8 ^ d))
    (hp : OnPath d pre h ph) (hj : h ∈ hashesOf (ch j)) : j = digit ph := by
  obtain ⟨hsh, hmod, hlt⟩ := hp
  have hpre' : pre + j.val * 8 ^ d < 8 ^ (d + 1) := by
    have h7 : j.val ≤ 7 := Nat.lt_succ_iff.mp j.isLt
    have : j.val * 8 ^ d ≤ 7 * 8 ^ d := Nat.mul_le_mul_right _ h7
    calc pre + j.val * 8 ^ d < 8 ^ d + 7 * 8 ^ d := by omega
      _ = 8 ^ (d + 1) := by ring
  have h1 : h % 8 ^ (d + 1) = pre + j.val * 8 ^ d :=
    Placement.mem_mod (hch j) hpre' h hj
  have h2 : h % 8 ^ (d + 1) = pre + (h / 8 ^ d % 8) * 8 ^ d := by
    rw [Nat.mod_pow_succ, hmod]; ring
  have hdig : (digit ph).val = h / 8 ^ d % 8 := by
    simp [digit, hsh, shiftRight_mul3]
  have hpow : 0 < 8 ^ d := Nat.pos_pow_of_pos d (by norm_num)
  have : j.val = (digit ph).val := by
    rw [hdig]
    have := h1.symm.trans h2
    exact Nat.eq_of_mul_eq_mul_right hpow (by omega)
  exact Fin.ext this

theorem hashesOf_setLowLevel_mem :
    ∀ (t : Tree V) (d pre ph h : Nat) (k : String) (v : V),
      Placement t d pre → OnPath d pre h ph → h ∈ hashesOf t →
      hashesOf (setLowLevel t ph h k v) = hashesOf t := by
  intro t
  induction t with
  | nil => intro d pre ph h k v _ _ hmem; simp [hashesOf] at hmem
  | node c h0 k0 v0 ch ih =>
    intro d pre ph h k v hpl hp hmem
    obtain ⟨hh0, hch⟩ := hpl
    by_cases hne : h = h0
    · subst hne
      simp [setLowLevel, hashesOf]
    · simp only [hashesOf, Multiset.mem_cons, Multiset.mem_sum] at hmem
      rcases hmem with rfl | ⟨j, _, hj⟩
      · exact absurd rfl hne
      · have hji : j = digit ph := mem_child_eq_digit hch hp hj
        subst hji
        simp only [setLowLevel, if_pos hne, hashesOf]
        rw [sum_update_erase hashesOf ch (digit ph),
          ih _ (d + 1) _ (ph >>> 3) h k v (hch _) (onPath_step hp) hj,
          sum_eq_add_erase hashesOf ch (digit ph)]

/-! ## Set preserves the invariants -/

theorem countOk_setLowLevel :
    ∀ (t : Tree V) (ph h : Nat) (k : String) (v : V),
      CountOk t → CountOk (setLowLevel t ph h k v) := by
  intro t
  induction t with
  | nil =>
    intro ph h k v _
    refine ⟨?_, fun i => trivial⟩
    simp [sumSizes, Tree.size]
  | node c h0 k0 v0 ch ih =>
    intro ph h k v hok
    obtain ⟨hc, hch⟩ := hok
    by_cases hne : h = h0
    · subst hne
      simp only [setLowLevel, ne_eq, ite_not, if_pos rfl]
      exact ⟨hc, hch⟩
    · simp only [setLowLevel, if_pos hne]
      refine ⟨rfl, fun j => ?_⟩
      by_cases hj : j = digit ph
      · subst hj
        rw [Function.update_same]
        exact ih _ _ _ k v (hch _)
      · rw [Function.update_noteq hj]
        exact hch j

theorem hashOk_setLowLevel :
    ∀ (t : Tree V) (ph h : Nat) (k : String) (v : V),
      HashOk t → h = hashKey k → HashOk (setLowLevel t ph h k v) := by
  intro t
  induction t with
  | nil =>
    intro ph h k v _ hk
    exact ⟨hk, fun i => trivial⟩
  | node c h0 k0 v0 ch ih =>
    intro ph h k v hok hk
    obtain ⟨h0k, hch⟩ := hok
    by_cases hne : h = h0
    · subst hne
      simp only [setLowLevel, ne_eq, ite_not, if_pos rfl]
      exact ⟨h0k, hch⟩
    · simp only [setLowLevel, if_pos hne]
      refine ⟨h0k, fun j => ?_⟩
      by_cases hj : j = digit ph
      · subst hj
        rw [Function.update_same]
        exact ih _ _ _ k v (hch _) hk
      · rw [Function.update_noteq hj]
        exact hch j

theorem placement_setLowLevel :
    ∀ (t : Tree V) (d pre ph h : Nat) (k : String) (v : V),
      Placement t d pre → OnPath d pre h ph →
      Placement (setLowLevel t ph h k v) d pre := by
  intro t
  induction t with
  | nil =>
    intro d pre ph h k v _ hp
    exact ⟨hp.2.1, fun i => trivial⟩
  | node c h0 k0 v0 ch ih =>
    intro d pre ph h k v hpl hp
    obtain ⟨hh0, hch⟩ := hpl
    by_cases hne : h = h0
    · subst hne
      simp only [setLowLevel, ne_eq, ite_not, if_pos rfl]
      exact ⟨hh0, hch⟩
    · simp only [setLowLevel, if_pos hne]
      refine ⟨hh0, fun j => ?_⟩
      by_cases hj : j = digit ph
      · subst hj
        rw [Function.update_same]
        exact ih _ (d + 1) _ (ph >>> 3) h k v (hch _) (onPath_step hp)
      · rw [Function.update_noteq hj]
        exact hch j

/-- `Set` preserves well-formedness. -/
theorem wf_set (t : Tree V) (k : String) (v : V) (hwf : WF t) : WF (t.set k v) := by
  obtain ⟨hcnt, hhash, hpl, hnd⟩ := hwf
  refine ⟨countOk_setLowLevel t _ _ k v hcnt,
    hashOk_setLowLevel t _ _ k v hhash rfl,
    placement_setLowLevel t 0 0 _ _ k v hpl (onPath_root _), ?_⟩
  by_cases hmem : hashKey k ∈ hashesOf t
  · rw [Tree.set, hashesOf_setLowLevel_mem t 0 0 _ _ k v hpl (onPath_root _) hmem]
    exact hnd
  · rw [Tree.set, hashesOf_setLowLevel_not_mem t _ _ k v hmem]
    exact Multiset.nodup_cons.mpr ⟨hmem, hnd⟩

/-! ## Lookup and membership -/

theorem lookup_none_of_not_mem : ∀ (t : Tree V) (ph h : Nat), h ∉ hashesOf t →
    lookupLowLevel t ph h = none := by
  intro t
  induction t with
  | nil => intro ph h _; rfl
  | node c h0 k0 v0 ch ih =>
    intro ph h hmem
    simp only [hashesOf, Multiset.mem_cons, not_or, Multiset.mem_sum] at hmem
    obtain ⟨hne, hnotsum⟩ := hmem
    simp only [lookupLowLevel, if_pos hne]
    exact ih _ _ h fun hc => hnotsum ⟨_, Finset.mem_univ _, hc⟩

theorem mem_of_lookup_some : ∀ (t : Tree V) (ph h : Nat) (v : V),
    lookupLowLevel t ph h = some v → h ∈ hashesOf t := by
  intro t
  induction t with
  | nil => intro ph h v hv; simp [lookupLowLevel] at hv
  | node c h0 k0 v0 ch ih =>
    intro ph h v hv
    by_cases hne : h = h0
    · subst hne; simp [hashesOf]
    · simp only [lookupLowLevel, if_pos hne] at hv
      have := ih _ _ h v hv
      simp only [hashesOf, Multiset.mem_cons, Multiset.mem_sum]
      exact Or.inr ⟨_, Finset.mem_univ _, this⟩

/-! ## The donor-selection loop -/

theorem argmax_foldl_spec (ch : Fin 8 → Tree V) :
    ∀ (l : List (Fin 8)) (p : Fin 8 × Int),
      p.2 ≤ (l.foldl
        (fun p j => if ((ch j).size : Int) > p.2 then (j, ((ch j).size : Int)) else p) p).2 ∧
      (∀ j ∈ l, ((ch j).size : Int) ≤ (l.foldl
        (fun p j => if ((ch j).size : Int) > p.2 then (j, ((ch j).size : Int)) else p) p).2) ∧
      ((l.foldl
        (fun p j => if ((ch j).size : Int) > p.2 then (j, ((ch j).size : Int)) else p) p) = p ∨
       (l.foldl
        (fun p j => if ((ch j).size : Int) > p.2 then (j, ((ch j).size : Int)) else p) p).2 =
         ((ch ((l.foldl
        (fun p j => if ((ch j).size : Int) > p.2 then (j, ((ch j).size : Int)) else p) p).1)).size : Int)) := by
  intro l
  induction l with
  | nil => intro p; exact ⟨le_refl _, by simp, Or.inl rfl⟩
  | cons a l ih =>
    intro p
    simp only [List.foldl_cons]
    set p1 := if ((ch a).size : Int) > p.2 then (a, ((ch a).size : Int)) else p with hp1
    obtain ⟨ih1, ih2, ih3⟩ := ih p1
    have hle : p.2 ≤ p1.2 := by
      rw [hp1]
      by_cases hgt : ((ch a).size : Int) > p.2
      · rw [if_pos hgt]; exact le_of_lt hgt
      · rw [if_neg hgt]
    have ha : ((ch a).size : Int) ≤ p1.2 := by
      rw [hp1]
      by_cases hgt : ((ch a).size : Int) > p.2
      · rw [if_pos hgt]
      · rw [if_neg hgt]; exact not_lt.mp hgt
    refine ⟨le_trans hle ih1, ?_, ?_⟩
    · intro j hj
      rcases List.mem_cons.mp hj with rfl | hj
      · exact le_trans ha ih1
      · exact ih2 j hj
    · rcases ih3 with heq | hval
      · rw [heq, hp1]
        by_cases hgt : ((ch a).size : Int) > p.2
        · rw [if_pos hgt]; exact Or.inr rfl
        · rw [if_neg hgt]; exact Or.inl rfl
      · exact Or.inr hval

/-- The donor loop selects a child of maximal count. -/
theorem argmaxChild_spec (ch : Fin 8 → Tree V) (j : Fin 8) :
    (ch j).size ≤ (ch (argmaxChild ch)).size := by
  obtain ⟨h1, h2, h3⟩ := argmax_foldl_spec ch (List.finRange 8) ((0 : Fin 8), (-1 : Int))
  rcases h3 with heq | hval
  · exfalso
    have := h2 0 (List.mem_finRange 0)
    rw [heq] at this
    simp at this
    omega
  · have := h2 j (List.mem_finRange j)
    rw [hval] at this
    unfold argmaxChild
    exact_mod_cast this

/-! ## deleteLeftmost -/

theorem isLeaf_node_iff {c h : Nat} {k : String} {v : V} {ch : Fin 8 → Tree V} :
    (Tree.node c h k v ch).isLeaf = true ↔ c = 1 := by
  simp [Tree.isLeaf, Tree.size]

/-- Full specification of `deleteLeftmost` on a count-correct, non-sentinel
tree: it succeeds, the deleted node is a real node whose hash leaves the
multiset of stored hashes, and all invariants pass to the remaining tree. -/
theorem deleteLeftmost_spec : ∀ (t : Tree V), CountOk t → t ≠ .nil →
    ∃ (dc dh : Nat) (dk : String) (dv : V) (dch : Fin 8 → Tree V) (rem : Tree V),
      deleteLeftmost t = some (.node dc dh dk dv dch, rem) ∧
      CountOk rem ∧
      hashesOf t = dh ::ₘ hashesOf rem ∧
      (∀ d pre, Placement t d pre → Placement rem d pre) ∧
      (HashOk t → dh = hashKey dk ∧ HashOk rem) := by
  intro t
  induction t with
  | nil => intro _ hne; exact absurd rfl hne
  | node c h k v ch ih =>
    intro hok _
    obtain ⟨hc, hch⟩ := hok
    by_cases hleaf : (Tree.node c h k v ch).isLeaf = true
    · -- leaf: the node itself is deleted, the sentinel remains
      have hc1 : c = 1 := isLeaf_node_iff.mp hleaf
      have hzero : ∀ i, (ch i).size = 0 := by
        intro i
        have hsum : sumSizes ch = 0 := by omega
        have := Finset.sum_eq_zero_iff.mp hsum i (Finset.mem_univ i)
        exact this
      have hnil : ∀ i, ch i = .nil := fun i =>
        CountOk.eq_nil_of_size_zero (hch i) (hzero i)
      refine ⟨c, h, k, v, ch, .nil, ?_, trivial, ?_, fun d pre _ => trivial,
        fun hh => ⟨hh.1, trivial⟩⟩
      · simp [deleteLeftmost, hleaf]
      · simp only [hashesOf]
        have : ∀ i : Fin 8, hashesOf (ch i) = 0 := by
          intro i; rw [hnil i]; rfl
        rw [Finset.sum_congr rfl fun i _ => this i]
        simp
    · -- not a leaf: some child is non-sentinel; recurse into the first one
      have hc1 : c ≠ 1 := fun hcon => hleaf (isLeaf_node_iff.mpr hcon)
      have hsum : 1 ≤ sumSizes ch := by omega
      have hex : ∃ i ∈ List.finRange 8, (!(ch i).isNil) = true := by
        by_contra hcon
        push_neg at hcon
        have hzero : ∀ i : Fin 8, (ch i).size = 0 := by
          intro i
          have h1 := hcon i (List.mem_finRange i)
          have h2 : (ch i).isNil = true := by
            cases hni : (ch i).isNil
            · exact absurd (by simp [hni]) h1
            · rfl
          rw [isNil_iff.mp h2]
          rfl
        have : sumSizes ch = 0 := Finset.sum_eq_zero fun i _ => hzero i
        omega
      obtain ⟨i, hfind⟩ := Option.isSome_iff_exists.mp (List.find?_isSome.mpr hex)
      have hpne : ch i ≠ .nil := by
        have hp := List.find?_some hfind
        have hni : (ch i).isNil = false := by
          cases hni : (ch i).isNil
          · rfl
          · rw [hni] at hp; exact absurd hp (by simp)
        exact isNil_false_iff.mp hni
      obtain ⟨dc, dh, dk, dv, dch, rem, heq, hremok, hhashes, hplace, hhash⟩ :=
        ih i (hch i) hpne
      refine ⟨dc, dh, dk, dv, dch, .node (sumSizes (Function.update ch i rem) + 1) h k v
        (Function.update ch i rem), ?_, ?_, ?_, ?_, ?_⟩
      · simp only [deleteLeftmost, hleaf, Bool.false_eq_true, if_false, hfind, heq]
      · refine ⟨rfl, fun j => ?_⟩
        by_cases hj : j = i
        · subst hj; rw [Function.update_same]; exact hremok
        · rw [Function.update_noteq hj]; exact hch j
      · simp only [hashesOf]
        rw [sum_update_erase hashesOf ch i, sum_eq_add_erase hashesOf ch i, hhashes]
        simp only [← Multiset.singleton_add]
        abel
      · intro d pre hpl
        obtain ⟨hh, hchpl⟩ := hpl
        refine ⟨hh, fun j => ?_⟩
        by_cases hj : j = i
        · subst hj
          rw [Function.update_same]
          exact hplace _ _ (hchpl _)
        · rw [Function.update_noteq hj]
          exact hchpl j
      · intro hh
        obtain ⟨hk1, hchh⟩ := hh
        obtain ⟨hdk, hremh⟩ := hhash (hchh i)
        refine ⟨hdk, hk1, fun j => ?_⟩
        by_cases hj : j = i
        · subst hj; rw [Function.update_same]; exact hremh
        · rw [Function.update_noteq hj]; exact hchh j

/-! ## deleteLowLevel -/

theorem child_pre_lt {d pre : Nat} (i : Fin 8) (hlt : pre < 8 ^ d) :
    pre + i.val * 8 ^ d < 8 ^ (d + 1) := by
  have h7 : i.val ≤ 7 := Nat.lt_succ_iff.mp i.isLt
  have : i.val * 8 ^ d ≤ 7 * 8 ^ d := Nat.mul_le_mul_right _ h7
  calc pre + i.val * 8 ^ d < 8 ^ d + 7 * 8 ^ d := by omega
    _ = 8 ^ (d + 1) := by ring

theorem sum_hashes_zero (ch : Fin 8 → Tree V) (hch : ∀ i, CountOk (ch i))
    (h0 : sumSizes ch = 0) : ∑ i : Fin 8, hashesOf (ch i) = 0 := by
  refine Finset.sum_eq_zero fun i _ => ?_
  have : (ch i).size = 0 := Finset.sum_eq_zero_iff.mp h0 i (Finset.mem_univ i)
  rw [CountOk.eq_nil_of_size_zero (hch i) this]
  rfl

/-- Full specification of `deleteLowLevel` on a count-correct tree: it
never hits the panic, the result is count-correct, a successful find
removes exactly one occurrence of the hash, a miss returns the input tree
itself, and placement and hash correctness carry over. -/
theorem deleteLowLevel_spec : ∀ (t : Tree V) (ph h : Nat), CountOk t →
    ∃ (t' : Tree V) (found : Bool),
      deleteLowLevel t ph h = some (t', found) ∧
      CountOk t' ∧
      (found = true → h ∈ hashesOf t ∧ hashesOf t' = (hashesOf t).erase h) ∧
      (found = false → t' = t) ∧
      (∀ d pre, pre < 8 ^ d → Placement t d pre → Placement t' d pre) ∧
      (HashOk t → HashOk t') := by
  intro t
  induction t with
  | nil =>
    intro ph h _
    exact ⟨.nil, false, rfl, trivial, by simp, fun _ => rfl,
      fun d pre _ _ => trivial, fun _ => trivial⟩
  | node c h0 k0 v0 ch ih =>
    intro ph h hok
    obtain ⟨hc, hch⟩ := hok
    by_cases hne : h = h0
    · -- hash match: delete this very node
      subst hne
      by_cases hleaf : (Tree.node c h k0 v0 ch).isLeaf = true
      · -- leaf: the sentinel replaces the node
        have hc1 : c = 1 := isLeaf_node_iff.mp hleaf
        have hz : sumSizes ch = 0 := by omega
        refine ⟨.nil, true, ?_, trivial, ?_, by simp, fun d pre _ _ => trivial,
          fun _ => trivial⟩
        · simp [deleteLowLevel, hleaf]
        · intro _
          constructor
          · simp [hashesOf]
          · simp only [hashesOf]
            rw [sum_hashes_zero ch hch hz, Multiset.erase_cons_head]
      · -- interior node: promote the leftmost entry of the largest child
        have hc1 : c ≠ 1 := fun hcon => hleaf (isLeaf_node_iff.mpr hcon)
        have hsum : 1 ≤ sumSizes ch := by omega
        have hj : ∃ j : Fin 8, (ch j).size ≠ 0 := by
          by_contra hcon
          push_neg at hcon
          have : sumSizes ch = 0 := Finset.sum_eq_zero fun j _ => hcon j
          omega
        obtain ⟨j, hjz⟩ := hj
        have hdonor : ch (argmaxChild ch) ≠ .nil := by
          intro hcon
          have h1 := argmaxChild_spec ch j
          rw [hcon] at h1
          simp [Tree.size] at h1
          exact hjz h1
        obtain ⟨dc, dh, dk, dv, dch, rem, heqDL, hremok, hhashes, hplaceDL, hhashDL⟩ :=
          deleteLeftmost_spec (ch (argmaxChild ch)) (hch _) hdonor
        set i := argmaxChild ch with hidef
        refine ⟨.node (sumSizes (Function.update ch i rem) + 1) dh dk dv
          (Function.update ch i rem), true, ?_, ?_, ?_, by simp, ?_, ?_⟩
        · simp only [deleteLowLevel, ne_eq, ite_not, eq_self_iff_true, if_true, hleaf,
            Bool.false_eq_true, if_false, ← hidef, heqDL]
        · refine ⟨rfl, fun j' => ?_⟩
          by_cases hj' : j' = i
          · subst hj'; rw [Function.update_same]; exact hremok
          · rw [Function.update_noteq hj']; exact hch j'
        · intro _
          refine ⟨by simp [hashesOf], ?_⟩
          simp only [hashesOf, Multiset.erase_cons_head]
          rw [sum_update_erase hashesOf ch i, sum_eq_add_erase hashesOf ch i, hhashes]
          rw [Multiset.cons_add]
        · intro d pre hlt hpl
          have hdh : dh % 8 ^ d = pre := by
            refine Placement.mem_mod hpl hlt dh ?_
            simp only [hashesOf, Multiset.mem_cons, Multiset.mem_sum]
            refine Or.inr ⟨i, Finset.mem_univ _, ?_⟩
            rw [hhashes]
            exact Multiset.mem_cons_self _ _
          obtain ⟨hh0m, hchpl⟩ := hpl
          refine ⟨hdh, fun j' => ?_⟩
          by_cases hj' : j' = i
          · subst hj'; rw [Function.update_same]
            exact hplaceDL _ _ (hchpl _)
          · rw [Function.update_noteq hj']; exact hchpl j'
        · intro hh
          obtain ⟨hk0, hchh⟩ := hh
          obtain ⟨hdk, hremh⟩ := hhashDL (hchh i)
          refine ⟨hdk, fun j' => ?_⟩
          by_cases hj' : j' = i
          · subst hj'; rw [Function.update_same]; exact hremh
          · rw [Function.update_noteq hj']; exact hchh j'
    · -- hash mismatch: recurse into the selected child
      obtain ⟨child, found, heq, hchok, hfound, hnfound, hpl, hho⟩ :=
        ih (digit ph) (ph >>> 3) h (hch _)
      cases found with
      | false =>
        refine ⟨.node c h0 k0 v0 ch, false, ?_, ⟨hc, hch⟩, by simp, fun _ => rfl,
          fun d pre _ hp => hp, fun hh => hh⟩
        simp only [deleteLowLevel, if_pos hne, heq, Bool.not_false, if_pos]
      | true =>
        obtain ⟨hmemc, hhashc⟩ := hfound rfl
        refine ⟨.node (sumSizes (Function.update ch (digit ph) child) + 1) h0 k0 v0
          (Function.update ch (digit ph) child), true, ?_, ?_, ?_, by simp, ?_, ?_⟩
        · simp only [deleteLowLevel, if_pos hne, heq, Bool.not_true,
            Bool.false_eq_true, if_false]
        · refine ⟨rfl, fun j' => ?_⟩
          by_cases hj' : j' = digit ph
          · subst hj'; rw [Function.update_same]; exact hchok
          · rw [Function.update_noteq hj']; exact hch j'
        · intro _
          constructor
          · simp only [hashesOf, Multiset.mem_cons, Multiset.mem_sum]
            exact Or.inr ⟨digit ph, Finset.mem_univ _, hmemc⟩
          · simp only [hashesOf]
            rw [sum_update_erase hashesOf ch (digit ph), hhashc,
              sum_eq_add_erase hashesOf ch (digit ph),
              Multiset.erase_cons_tail _ (fun hcon => hne hcon.symm),
              Multiset.erase_add_left_pos _ hmemc]
        · intro d pre hlt hpla
          obtain ⟨hh0m, hchpl⟩ := hpla
          refine ⟨hh0m, fun j' => ?_⟩
          by_cases hj' : j' = digit ph
          · subst hj'; rw [Function.update_same]
            exact hpl (d + 1) _ (child_pre_lt _ hlt) (hchpl _)
          · rw [Function.update_noteq hj']; exact hchpl j'
        · intro hh
          obtain ⟨hk0, hchh⟩ := hh
          refine ⟨hk0, fun j' => ?_⟩
          by_cases hj' : j' = digit ph
          · subst hj'; rw [Function.update_same]; exact hho (hchh _)
          · rw [Function.update_noteq hj']; exact hchh j'

/-- A miss in `deleteLowLevel` is a miss for `lookupLowLevel`: the two
functions descend the same path. -/
theorem lookup_none_of_delete_not_found : ∀ (t t' : Tree V) (ph h : Nat),
    deleteLowLevel t ph h = some (t', false) → lookupLowLevel t ph h = none := by
  intro t
  induction t with
  | nil => intro t' ph h _; rfl
  | node c h0 k0 v0 ch ih =>
    intro t' ph h hdel
    by_cases hne : h = h0
    · exfalso
      subst hne
      by_cases hleaf : (Tree.node c h k0 v0 ch).isLeaf = true
      · simp [deleteLowLevel, hleaf] at hdel
      · simp only [deleteLowLevel, ne_eq, ite_not, eq_self_iff_true, if_true, hleaf,
          Bool.false_eq_true, if_false] at hdel
        rcases hDL : deleteLeftmost (ch (argmaxChild ch)) with _ | ⟨rep, child⟩ <;>
          rw [hDL] at hdel
        · simp at hdel
        · rcases rep with _ | ⟨rc, rh, rk, rv, rch⟩ <;> simp at hdel
    · simp only [deleteLowLevel, if_pos hne] at hdel
      simp only [lookupLowLevel, if_pos hne]
      rcases hrec : deleteLowLevel (ch (digit ph)) (ph >>> 3) h with _ | ⟨child, found⟩ <;>
        rw [hrec] at hdel
      · simp at hdel
      · cases found with
        | false => exact ih _ _ _ h hrec
        | true => simp at hdel

/-- `Delete` preserves well-formedness. -/
theorem wf_delete {t t' : Tree V} {k : String} (hwf : WF t)
    (hdel : t.delete k = some t') : WF t' := by
  obtain ⟨hcnt, hhash, hpl, hnd⟩ := hwf
  obtain ⟨t'', found, heq, hcnt', hfound, hnfound, hpl', hho'⟩ :=
    deleteLowLevel_spec t (hashKey k) (hashKey k) hcnt
  rw [Tree.delete, heq] at hdel
  obtain rfl : t'' = t' := by simpa using hdel
  refine ⟨hcnt', ?_, hpl' 0 0 (by norm_num) hpl, ?_⟩
  · exact hho' hhash
  · cases found with
    | false => rw [hnfound rfl]; exact hnd
    | true =>
      obtain ⟨_, hh⟩ := hfound rfl
      rw [hh]
      exact hnd.erase _

/-- C2: on any well-formed map, `Delete k` succeeds and `Lookup k` on the
result reports not-found, in particular also when the delete promoted a
replacement entry into the deleted node's position. -/
theorem lookup_after_delete (m : Tree V) (k : String) (hwf : WF m) :
    ∃ m', m.delete k = some m' ∧ m'.lookup k = none := by
  obtain ⟨hcnt, hhash, hpl, hnd⟩ := hwf
  obtain ⟨t', found, heq, hcnt', hfound, hnfound, hpl', hho'⟩ :=
    deleteLowLevel_spec m (hashKey k) (hashKey k) hcnt
  refine ⟨t', ?_, ?_⟩
  · rw [Tree.delete, heq]; rfl
  · cases found with
    | false =>
      rw [hnfound rfl]
      exact lookup_none_of_delete_not_found m t' _ _ (by rw [heq, hnfound rfl])
    | true =>
      obtain ⟨hmem, hh⟩ := hfound rfl
      have hnotmem : hashKey k ∉ hashesOf t' := by
        rw [hh]
        intro hcon
        have h1 := Multiset.count_erase_self (hashKey k) (hashesOf m)
        have h2 := Multiset.nodup_iff_count_le_one.mp hnd (hashKey k)
        have h3 : 0 < (hashesOf m).count (hashKey k) := Multiset.count_pos.mpr hmem
        have h4 : 0 < ((hashesOf m).erase (hashKey k)).count (hashKey k) :=
          Multiset.count_pos.mpr hcon
        omega
      exact lookup_none_of_not_mem t' _ _ hnotmem

theorem lookup_after_delete_witness :
    ∃ m', ((newMap (V := Nat)).set "a" 1).delete "a" = some m' ∧
      m'.lookup "a" = none :=
  lookup_after_delete ((newMap (V := Nat)).set "a" 1) "a" (by decide)

/-- C9: on count-correct trees the delete-promotion failure branch is
unreachable: `deleteLowLevel` always succeeds, `deleteLeftmost` succeeds
on every non-sentinel count-correct tree, and a hash-matching non-leaf
node always has at least one non-sentinel child, so the panic in
`deleteLeftmost` can never execute. -/
theorem delete_promotion_no_panic :
    (∀ (t : Tree V) (ph h : Nat), CountOk t →
      ∃ r, deleteLowLevel t ph h = some r) ∧
    (∀ t : Tree V, CountOk t → t ≠ .nil → (deleteLeftmost t).isSome = true) ∧
    (∀ (c h : Nat) (k : String) (v : V) (ch : Fin 8 → Tree V),
      CountOk (.node c h k v ch) → (Tree.node c h k v ch).isLeaf = false →
      ∃ i, (ch i).isNil = false) := by
  refine ⟨?_, ?_, ?_⟩
  · intro t ph h hok
    obtain ⟨t', found, heq, _⟩ := deleteLowLevel_spec t ph h hok
    exact ⟨(t', found), heq⟩
  · intro t hok hne
    obtain ⟨dc, dh, dk, dv, dch, rem, heq, _⟩ := deleteLeftmost_spec t hok hne
    rw [heq]
    rfl
  · intro c h k v ch hok hleaf
    obtain ⟨hc, hch⟩ := hok
    have hc1 : c ≠ 1 := fun hcon => by
      rw [isLeaf_node_iff.mpr hcon] at hleaf
      exact Bool.true_eq_false.mp hleaf
    have hsum : 1 ≤ sumSizes ch := by omega
    have hj : ∃ j : Fin 8, (ch j).size ≠ 0 := by
      by_contra hcon
      push_neg at hcon
      have : sumSizes ch = 0 := Finset.sum_eq_zero fun j _ => hcon j
      omega
    obtain ⟨j, hjz⟩ := hj
    refine ⟨j, ?_⟩
    cases hni : (ch j).isNil
    · rfl
    · rw [isNil_iff.mp hni] at hjz
      exact absurd rfl hjz

theorem delete_promotion_no_panic_witness :
    ∃ r, deleteLowLevel ((newMap (V := Nat)).set "a" 1) 0 0 = some r :=
  (delete_promotion_no_panic (V := Nat)).1 _ 0 0 (by decide)

/-! ## C4: Size bookkeeping -/

/-- A sequence of `Set` operations applied in order. -/
def applySets : Tree V → List (String × V) → Tree V
  | t, [] => t
  | t, p :: l => applySets (t.set p.1 p.2) l

theorem applySets_size : ∀ (l : List (String × V)) (t : Tree V), CountOk t →
    (∀ p ∈ l, hashKey p.1 ∉ hashesOf t) →
    (l.map fun p => hashKey p.1).Nodup →
    CountOk (applySets t l) ∧ (applySets t l).size = t.size + l.length := by
  intro l
  induction l with
  | nil => intro t hok _ _; exact ⟨hok, by simp [applySets]⟩
  | cons p l ih =>
    intro t hok hfresh hnd
    have hpf : hashKey p.1 ∉ hashesOf t := hfresh p (List.mem_cons_self p l)
    have hok1 : CountOk (t.set p.1 p.2) := countOk_setLowLevel t _ _ _ _ hok
    have hh1 : hashesOf (t.set p.1 p.2) = hashKey p.1 ::ₘ hashesOf t :=
      hashesOf_setLowLevel_not_mem t _ _ _ _ hpf
    simp only [List.map_cons, List.nodup_cons] at hnd
    obtain ⟨hhead, htail⟩ := hnd
    have hfresh1 : ∀ q ∈ l, hashKey q.1 ∉ hashesOf (t.set p.1 p.2) := by
      intro q hq
      rw [hh1]
      intro hcon
      rcases Multiset.mem_cons.mp hcon with heq | hmem
      · exact hhead (by rw [← heq]; exact List.mem_map_of_mem _ hq)
      · exact hfresh q (List.mem_cons_of_mem p hq) hmem
    obtain ⟨hok2, hsz⟩ := ih (t.set p.1 p.2) hok1 hfresh1 htail
    refine ⟨by simpa [applySets] using hok2, ?_⟩
    have hs1 : (t.set p.1 p.2).size = t.size + 1 := by
      rw [CountOk.size_eq_card hok1, hh1, Multiset.card_cons, CountOk.size_eq_card hok]
    simp only [applySets] at hsz ⊢
    rw [hsz, hs1, List.length_cons]
    omega

theorem hashKey_lt (k : String) : hashKey k < 2 ^ 64 := by
  rw [hashKey]
  have hstep : ∀ (l : List Char) (a : Nat), a < 2 ^ 64 →
      l.foldl (fun hash c => ((hash ^^^ c.toNat) * prime64) % 2 ^ 64) a < 2 ^ 64 := by
    intro l
    induction l with
    | nil => intro a ha; exact ha
    | cons c l ihl => intro a ha; exact ihl _ (Nat.mod_lt _ (by norm_num))
  exact hstep _ _ (by norm_num [offset64])

/-- The 64-bit FNV-1a hash cannot be injective on the infinitely many
strings: some two distinct keys collide. -/
theorem hashKey_collision : ∃ k1 k2 : String, k1 ≠ k2 ∧ hashKey k1 = hashKey k2 := by
  obtain ⟨k1, k2, hne, hh⟩ := Finite.exists_ne_map_eq_of_infinite
    (fun k : String => (⟨hashKey k, hashKey_lt k⟩ : Fin (2 ^ 64)))
  exact ⟨k1, k2, hne, congrArg Fin.val hh⟩

/-- Two sets with hash-equal keys on the empty map produce one entry: the
second set overwrites the first. -/
theorem size_set_set_collide (k1 k2 : String) (v1 v2 : V)
    (h : hashKey k1 = hashKey k2) : ((newMap.set k1 v1).set k2 v2).size = 1 := by
  have h1 : (newMap.set k1 v1 : Tree V) = .node 1 (hashKey k1) k1 v1 fun _ => .nil := rfl
  rw [Tree.set, h1, setLowLevel]
  rw [if_neg (by rw [h]; exact fun hcon => hcon rfl)]
  rfl

/-- C4 as stated is false on this code: `Size` after a sequence of sets
with pairwise distinct keys can fall short of the number of keys, because
two distinct keys whose full 64-bit hashes collide share one slot. -/
theorem size_after_distinct_sets_cex :
    ¬ ∀ (l : List (String × Nat)), (l.map Prod.fst).Nodup →
        (applySets (newMap (V := Nat)) l).size = l.length := by
  intro hcl
  obtain ⟨k1, k2, hne, hh⟩ := hashKey_collision
  have h2 := hcl [(k1, 0), (k2, 0)] (by simp [hne])
  have h3 : applySets (newMap (V := Nat)) [(k1, 0), (k2, 0)] =
      (newMap.set k1 0).set k2 0 := rfl
  rw [h3, size_set_set_collide k1 k2 0 0 hh] at h2
  simp at h2

/-- A found delete is a found lookup: the two functions descend the same
path. -/
theorem lookup_some_of_delete_found : ∀ (t t' : Tree V) (ph h : Nat),
    deleteLowLevel t ph h = some (t', true) → ∃ v, lookupLowLevel t ph h = some v := by
  intro t
  induction t with
  | nil => intro t' ph h hdel; simp [deleteLowLevel] at hdel
  | node c h0 k0 v0 ch ih =>
    intro t' ph h hdel
    by_cases hne : h = h0
    · subst hne
      exact ⟨v0, by simp [lookupLowLevel]⟩
    · simp only [deleteLowLevel, if_pos hne] at hdel
      simp only [lookupLowLevel, if_pos hne]
      rcases hrec : deleteLowLevel (ch (digit ph)) (ph >>> 3) h with _ | ⟨child, found⟩ <;>
        rw [hrec] at hdel
      · simp at hdel
      · cases found with
        | false => simp at hdel
        | true => exact ih _ _ _ h hrec

/-- C4 amended: starting from the empty map, `N` `Set` operations on keys
with pairwise distinct hashes (hence pairwise distinct keys) give
`Size = N`; deleting a present key decreases `Size` by one; deleting an
absent key returns the map unchanged; setting an already present key
leaves `Size` unchanged. -/
theorem size_facts :
    (∀ l : List (String × V), (l.map fun p => hashKey p.1).Nodup →
      (applySets newMap l).size = l.length) ∧
    (∀ (m : Tree V) (k : String), WF m → (∃ v, m.lookup k = some v) →
      ∃ m', m.delete k = some m' ∧ m'.size + 1 = m.size) ∧
    (∀ (m : Tree V) (k : String), WF m → m.lookup k = none →
      m.delete k = some m) ∧
    (∀ (m : Tree V) (k : String) (v : V), WF m → (∃ v0, m.lookup k = some v0) →
      (m.set k v).size = m.size) := by
  refine ⟨?_, ?_, ?_, ?_⟩
  · intro l hnd
    have := applySets_size l newMap trivial (by intro p _; simp [newMap, hashesOf]) hnd
    simpa [newMap, Tree.size] using this.2
  · intro m k hwf hlook
    obtain ⟨v, hv⟩ := hlook
    obtain ⟨hcnt, hhash, hpl, hnd⟩ := hwf
    obtain ⟨t', found, heq, hcnt', hfound, hnfound, _, _⟩ :=
      deleteLowLevel_spec m (hashKey k) (hashKey k) hcnt
    cases found with
    | false =>
      exfalso
      have := lookup_none_of_delete_not_found m t' _ _ (by rw [heq, hnfound rfl])
      rw [Tree.lookup] at hv
      rw [this] at hv
      exact Option.noConfusion hv
    | true =>
      obtain ⟨hmem, hh⟩ := hfound rfl
      refine ⟨t', by rw [Tree.delete, heq]; rfl, ?_⟩
      rw [CountOk.size_eq_card hcnt', CountOk.size_eq_card hcnt, hh,
        Multiset.card_erase_of_mem hmem, Nat.pred_eq_sub_one]
      have : 0 < (hashesOf m).card :=
        Multiset.card_pos.mpr (fun hz => by rw [hz] at hmem; simp at hmem)
      omega
  · intro m k hwf hlook
    obtain ⟨hcnt, _, _, _⟩ := hwf
    obtain ⟨t', found, heq, _, hfound, hnfound, _, _⟩ :=
      deleteLowLevel_spec m (hashKey k) (hashKey k) hcnt
    cases found with
    | true =>
      exfalso
      obtain ⟨v, hv⟩ := lookup_some_of_delete_found m t' _ _ (by rw [heq])
      rw [Tree.lookup, hv] at hlook
      exact Option.noConfusion hlook
    | false =>
      rw [Tree.delete, heq, hnfound rfl]
      rfl
  · intro m k v hwf hlook
    obtain ⟨v0, hv⟩ := hlook
    obtain ⟨hcnt, hhash, hpl, hnd⟩ := hwf
    have hmem : hashKey k ∈ hashesOf m := mem_of_lookup_some m _ _ v0 hv
    have hok' : CountOk (m.set k v) := countOk_setLowLevel m _ _ _ _ hcnt
    rw [CountOk.size_eq_card hok', CountOk.size_eq_card hcnt, Tree.set,
      hashesOf_setLowLevel_mem m 0 0 _ _ k v hpl (onPath_root _) hmem]

theorem size_facts_witness :
    (applySets (newMap (V := Nat)) [("a", 1), ("b", 2)]).size = 2 ∧
    (∃ m', ((newMap (V := Nat)).set "a" 1).delete "a" = some m' ∧
      m'.size + 1 = ((newMap (V := Nat)).set "a" 1).size) ∧
    ((newMap (V := Nat)).set "a" 1).delete "b" = some ((newMap (V := Nat)).set "a" 1) ∧
    (((newMap (V := Nat)).set "a" 1).set "a" 5).size = ((newMap (V := Nat)).set "a" 1).size :=
  ⟨size_facts.1 _ (by decide),
   size_facts.2.1 _ "a" (by decide) ⟨1, by decide⟩,
   size_facts.2.2.1 _ "b" (by decide) (by decide),
   size_facts.2.2.2 _ "a" 5 (by decide) ⟨1, by decide⟩⟩

/-! ## C5: the data-model invariants on all reachable maps -/

/-- Map handles reachable from `NewMap()` by `Set` and (successful)
`Delete` operations. -/
inductive Reach : Tree V → Prop where
  | empty : Reach newMap
  | set {t : Tree V} (k : String) (v : V) : Reach t → Reach (t.set k v)
  | del {t t' : Tree V} (k : String) : Reach t → t.delete k = some t' → Reach t'

/-- `Subtree s t`: `s` is a node of the tree `t`. -/
inductive Subtree : Tree V → Tree V → Prop where
  | refl (t : Tree V) : Subtree t t
  | child {s : Tree V} {count hash : Nat} {key : String} {value : V}
      {ch : Fin 8 → Tree V} (i : Fin 8) :
      Subtree s (ch i) → Subtree s (.node count hash key value ch)

theorem CountOk.subtree : ∀ {s t : Tree V}, Subtree s t → CountOk t → CountOk s := by
  intro s t hsub
  induction hsub with
  | refl => exact id
  | child i _ ih => intro hok; exact ih (hok.2 i)

/-- Every reachable map is well-formed. -/
theorem Reach.wf : ∀ {t : Tree V}, Reach t → WF t := by
  intro t hr
  induction hr with
  | empty => exact ⟨trivial, trivial, trivial, by simp [newMap, hashesOf]⟩
  | set k v _ ih => exact wf_set _ k v ih
  | del k _ hdel ih => exact wf_delete ih hdel

/-- C5: in every map reachable from `NewMap` by `Set`/`Delete`, every node
satisfies the count invariant — the sentinel's count is `0`, a real node's
count is one plus the sum of its children's counts — and a node is a leaf
(count `1`) exactly when it holds an entry and all eight children are the
sentinel. -/
theorem reachable_count_invariant {t s : Tree V} (hr : Reach t) (hsub : Subtree s t) :
    (s.isNil = true → s.size = 0) ∧
    (s.isNil = false → s.size = sumSizes s.childrenOf + 1) ∧
    (s.isLeaf = true ↔ s.isNil = false ∧ ∀ i, (s.childrenOf i).isNil = true) := by
  have hok : CountOk s := CountOk.subtree hsub (Reach.wf hr).1
  cases s with
  | nil => exact ⟨fun _ => rfl, by simp [Tree.isNil], by simp [Tree.isLeaf, Tree.size, Tree.isNil]⟩
  | node c h k v ch =>
    obtain ⟨hc, hch⟩ := hok
    refine ⟨by simp [Tree.isNil], fun _ => ?_, ?_⟩
    · simpa [Tree.size, Tree.childrenOf] using hc
    · simp only [Tree.isNil, Tree.childrenOf, isLeaf_node_iff, true_and]
      constructor
      · intro hc1 i
        have hz : sumSizes ch = 0 := by omega
        have : (ch i).size = 0 := Finset.sum_eq_zero_iff.mp hz i (Finset.mem_univ i)
        rw [CountOk.eq_nil_of_size_zero (hch i) this]
      · intro hall
        have : sumSizes ch = 0 := Finset.sum_eq_zero fun i _ => by
          rw [isNil_iff.mp (hall i)]; rfl
        omega

theorem reachable_count_invariant_witness :
    ((newMap (V := Nat)).set "a" 1).isNil = false ∧
    ((newMap (V := Nat)).set "a" 1).size =
      sumSizes ((newMap (V := Nat)).set "a" 1).childrenOf + 1 := by
  have h := reachable_count_invariant (Reach.set "a" 1 Reach.empty) (Subtree.refl _)
  exact ⟨by decide, h.2.1 (by decide)⟩

/-! ## C6: full-hash collisions share a slot -/

/-- C6: two keys with equal full 64-bit hashes address one storage slot:
setting the second overwrites the first's entry, and `Lookup`/`Delete` of
either key read or modify the shared slot (they are literally the same
operation, since both functions consume only the hash). -/
theorem hash_collision_shared_slot (m : Tree V) (k1 k2 : String) (v1 v2 : V)
    (hcoll : hashKey k1 = hashKey k2) :
    ((m.set k1 v1).set k2 v2).lookup k1 = some v2 ∧
    m.lookup k1 = m.lookup k2 ∧
    m.delete k1 = m.delete k2 := by
  refine ⟨?_, ?_, ?_⟩
  · rw [Tree.lookup, hcoll]
    exact lookup_setLowLevel _ _ _ k2 v2
  · rw [Tree.lookup, Tree.lookup, hcoll]
  · rw [Tree.delete, Tree.delete, hcoll]

theorem hash_collision_shared_slot_witness :
    (((newMap (V := Nat)).set "a" 1).set "a" 2).lookup "a" = some 2 ∧
    (newMap (V := Nat)).lookup "a" = (newMap (V := Nat)).lookup "a" ∧
    (newMap (V := Nat)).delete "a" = (newMap (V := Nat)).delete "a" :=
  hash_collision_shared_slot newMap "a" "a" 1 2 rfl

/-! ## Heap-level embedding

Go's nodes are heap objects reached through pointers; sharing and the
path-copy discipline are statements about pointers.  We model the heap as
an allocation list: address `a` holds node `H[a]`, new nodes are appended,
and — exactly as in the source, which clones a node and then assigns into
the fresh clone — the only in-place writes are to nodes allocated by the
operation itself.  The sentinel `nilMap` is address `0`. -/

/-- The Go `tree` struct with pointers as heap addresses.  The sentinel's
`value` is Go's `nil`, here `none`. -/
structure HNode (V : Type) where
  count : Nat
  hash : Nat
  key : String
  value : Option V
  children : Fin 8 → Nat

/-- The allocation heap. -/
abbrev Heap (V : Type) := List (HNode V)

/-- The sentinel node `nilMap`: count `0`, children pointing at itself. -/
def hSentinel : HNode V := ⟨0, 0, "", none, fun _ => 0⟩

/-- `Size` at the heap level: read the `count` field. -/
def hSize (H : Heap V) (a : Nat) : Nat :=
  match H[a]? with
  | some n => n.count
  | none => 0

/-- The loop of `recalculateCount` at the heap level. -/
def hSumSizes (H : Heap V) (ch : Fin 8 → Nat) : Nat := ∑ i : Fin 8, hSize H (ch i)

/-- `setLowLevel` at the heap level.  `fuel` bounds the recursion depth
(Go's recursion terminates because the tree is finite); exhausted fuel or
a dangling address is `none`.  As in the source, the clone is allocated
before the recursive call and the fresh clone — never an existing node —
is then mutated. -/
def hSetLowLevel : Nat → Heap V → Nat → Nat → Nat → String → V → Option (Heap V × Nat)
  | 0, _, _, _, _, _, _ => none
  | fuel + 1, H, self, partialHash, hash, key, value =>
    if self = 0 then
      some (H ++ [⟨1, hash, key, some value, fun _ => 0⟩], H.length)
    else
      match H[self]? with
      | none => none
      | some n =>
        if hash ≠ n.hash then
          let m := H.length
          let H1 := H ++ [n]
          let i := digit partialHash
          match hSetLowLevel fuel H1 (n.children i) (partialHash >>> 3) hash key value with
          | none => none
          | some (H2, c) =>
            let ch' := Function.update n.children i c
            some (H2.set m ⟨hSumSizes H2 ch' + 1, n.hash, n.key, n.value, ch'⟩, m)
        else
          some (H ++ [⟨n.count, n.hash, n.key, some value, n.children⟩], H.length)

/-- `lookupLowLevel` at the heap level; the outer `Option` is fuel or a
dangling address, the inner one is found/not-found. -/
def hLookupLowLevel : Nat → Heap V → Nat → Nat → Nat → Option (Option V)
  | 0, _, _, _, _ => none
  | fuel + 1, H, self, partialHash, hash =>
    if self = 0 then some none
    else
      match H[self]? with
      | none => none
      | some n =>
        if hash ≠ n.hash then
          hLookupLowLevel fuel H (n.children (digit partialHash)) (partialHash >>> 3) hash
        else some n.value

/-- `deleteLeftmost` at the heap level: returns the heap, the deleted
node's address and the remaining subtree's address. -/
def hDeleteLeftmost : Nat → Heap V → Nat → Option (Heap V × Nat × Nat)
  | 0, _, _ => none
  | fuel + 1, H, t =>
    match H[t]? with
    | none => none
    | some n =>
      if n.count = 1 then some (H, t, 0)
      else
        match (List.finRange 8).find? (fun i => n.children i != 0) with
        | none => none
        | some i =>
          match hDeleteLeftmost fuel H (n.children i) with
          | none => none
          | some (H1, deleted, child) =>
            let m := H1.length
            let H2 := H1 ++ [n]
            let ch' := Function.update n.children i child
            some (H2.set m ⟨hSumSizes H2 ch' + 1, n.hash, n.key, n.value, ch'⟩, deleted, m)

/-- The donor-selection loop at the heap level. -/
def hArgmaxChild (H : Heap V) (ch : Fin 8 → Nat) : Fin 8 :=
  ((List.finRange 8).foldl
    (fun p j => if (hSize H (ch j) : Int) > p.2 then (j, (hSize H (ch j) : Int)) else p)
    ((0 : Fin 8), (-1 : Int))).1

/-- `deleteLowLevel` at the heap level. -/
def hDeleteLowLevel : Nat → Heap V → Nat → Nat → Nat → Option (Heap V × Nat × Bool)
  | 0, _, _, _, _ => none
  | fuel + 1, H, self, partialHash, hash =>
    if self = 0 then some (H, self, false)
    else
      match H[self]? with
      | none => none
      | some n =>
        if hash ≠ n.hash then
          let i := digit partialHash
          match hDeleteLowLevel fuel H (n.children i) (partialHash >>> 3) hash with
          | none => none
          | some (H1, child, found) =>
            if !found then some (H1, self, false)
            else
              let m := H1.length
              let H2 := H1 ++ [n]
              let ch' := Function.update n.children i child
              some (H2.set m ⟨hSumSizes H2 ch' + 1, n.hash, n.key, n.value, ch'⟩, m, true)
        else if n.count = 1 then some (H, 0, true)
        else
          let i := hArgmaxChild H n.children
          match hDeleteLeftmost fuel H (n.children i) with
          | none => none
          | some (H1, rep, child) =>
            match H1[rep]? with
            | none => none
            | some rn =>
              let m := H1.length
              let H2 := H1 ++ [rn]
              let ch' := Function.update n.children i child
              some (H2.set m ⟨hSumSizes H2 ch' + 1, rn.hash, rn.key, rn.value, ch'⟩, m, true)

/-- The pure tree denoted by address `a`. -/
def readTree : Nat → Heap V → Nat → Option (Tree V)
  | 0, _, _ => none
  | fuel + 1, H, a =>
    if a = 0 then some .nil
    else
      match H[a]? with
      | none => none
      | some n =>
        match n.value with
        | none => none
        | some v => do
          let c0 ← readTree fuel H (n.children 0)
          let c1 ← readTree fuel H (n.children 1)
          let c2 ← readTree fuel H (n.children 2)
          let c3 ← readTree fuel H (n.children 3)
          let c4 ← readTree fuel H (n.children 4)
          let c5 ← readTree fuel H (n.children 5)
          let c6 ← readTree fuel H (n.children 6)
          let c7 ← readTree fuel H (n.children 7)
          pure (.node n.count n.hash n.key v ![c0, c1, c2, c3, c4, c5, c6, c7])

/-- Every child pointer stored in the heap is a valid address. -/
def Closed (H : Heap V) : Prop :=
  ∀ n ∈ H, ∀ i : Fin 8, n.children i < H.length

instance (H : Heap V) : Decidable (Closed H) :=
  inferInstanceAs (Decidable (∀ n ∈ H, ∀ i : Fin 8, n.children i < H.length))

/-- `H'` is `H` with possibly more nodes appended: every address valid in
`H` holds the very same node in `H'`. -/
def Extends (H H' : Heap V) : Prop :=
  H.length ≤ H'.length ∧ ∀ j, j < H.length → H'[j]? = H[j]?

theorem extends_refl (H : Heap V) : Extends H H := ⟨le_refl _, fun _ _ => rfl⟩

theorem Extends.trans {H1 H2 H3 : Heap V} (h12 : Extends H1 H2) (h23 : Extends H2 H3) :
    Extends H1 H3 :=
  ⟨le_trans h12.1 h23.1, fun j hj => by rw [h23.2 j (lt_of_lt_of_le hj h12.1), h12.2 j hj]⟩

theorem extends_append (H : Heap V) (l : List (HNode V)) : Extends H (H ++ l) :=
  ⟨by simp, fun j hj => by rw [List.getElem?_append, if_pos hj]⟩

/-- Overwriting an address at or past the end of the original heap — a
write into a node the operation freshly allocated — preserves extension. -/
theorem Extends.set_fresh {H H2 : Heap V} (hx : Extends H H2) {m : Nat}
    (hm : H.length ≤ m) (n : HNode V) : Extends H (H2.set m n) :=
  ⟨by rw [List.length_set]; exact hx.1,
   fun j hj => by rw [List.getElem?_set_ne (by omega), hx.2 j hj]⟩

/-- `setLowLevel` only allocates: every node of the original heap is left
in place, byte for byte. -/
theorem hSetLowLevel_extends : ∀ (fuel : Nat) (H : Heap V) (a ph h : Nat) (k : String)
    (v : V) (H' : Heap V) (b : Nat),
    hSetLowLevel fuel H a ph h k v = some (H', b) → Extends H H' := by
  intro fuel
  induction fuel with
  | zero => intro H a ph h k v H' b hset; simp [hSetLowLevel] at hset
  | succ fuel ih =>
    intro H a ph h k v H' b hset
    by_cases ha : a = 0
    · simp only [hSetLowLevel, if_pos ha, Option.some.injEq, Prod.mk.injEq] at hset
      obtain ⟨rfl, rfl⟩ := hset
      exact extends_append H _
    · simp only [hSetLowLevel, if_neg ha] at hset
      split at hset
      · exact absurd hset (by simp)
      · rename_i n hn
        split at hset
        · split at hset
          · exact absurd hset (by simp)
          · rename_i H2 c hrec
            simp only [Option.some.injEq, Prod.mk.injEq] at hset
            obtain ⟨rfl, rfl⟩ := hset
            have hx1 : Extends H H2 :=
              (extends_append H [n]).trans (ih _ _ _ _ _ _ _ _ hrec)
            exact hx1.set_fresh (le_refl _) _
        · simp only [Option.some.injEq, Prod.mk.injEq] at hset
          obtain ⟨rfl, rfl⟩ := hset
          exact extends_append H _

/-- `deleteLeftmost` only allocates. -/
theorem hDeleteLeftmost_extends : ∀ (fuel : Nat) (H : Heap V) (a : Nat)
    (H' : Heap V) (b c : Nat),
    hDeleteLeftmost fuel H a = some (H', b, c) → Extends H H' := by
  intro fuel
  induction fuel with
  | zero => intro H a H' b c hdel; simp [hDeleteLeftmost] at hdel
  | succ fuel ih =>
    intro H a H' b c hdel
    simp only [hDeleteLeftmost] at hdel
    split at hdel
    · exact absurd hdel (by simp)
    · rename_i n hn
      split at hdel
      · simp only [Option.some.injEq, Prod.mk.injEq] at hdel
        obtain ⟨rfl, rfl, rfl⟩ := hdel
        exact extends_refl H
      · split at hdel
        · exact absurd hdel (by simp)
        · rename_i i hf
          split at hdel
          · exact absurd hdel (by simp)
          · rename_i H1 deleted child hrec
            simp only [Option.some.injEq, Prod.mk.injEq] at hdel
            obtain ⟨rfl, rfl, rfl⟩ := hdel
            have hx1 : Extends H H1 := ih _ _ _ _ _ hrec
            exact (hx1.trans (extends_append H1 [n])).set_fresh
              (le_trans hx1.1 (by simp)) _

/-- `deleteLowLevel` only allocates. -/
theorem hDeleteLowLevel_extends : ∀ (fuel : Nat) (H : Heap V) (a ph h : Nat)
    (H' : Heap V) (b : Nat) (fd : Bool),
    hDeleteLowLevel fuel H a ph h = some (H', b, fd) → Extends H H' := by
  intro fuel
  induction fuel with
  | zero => intro H a ph h H' b fd hdel; simp [hDeleteLowLevel] at hdel
  | succ fuel ih =>
    intro H a ph h H' b fd hdel
    by_cases ha : a = 0
    · simp only [hDeleteLowLevel, if_pos ha, Option.some.injEq, Prod.mk.injEq] at hdel
      obtain ⟨rfl, rfl, rfl⟩ := hdel
      exact extends_refl H
    · simp only [hDeleteLowLevel, if_neg ha] at hdel
      split at hdel
      · exact absurd hdel (by simp)
      · rename_i n hn
        split at hdel
        · -- hash mismatch: recurse
          split at hdel
          · exact absurd hdel (by simp)
          · rename_i H1 child found hrec
            have hx1 : Extends H H1 := ih _ _ _ _ _ _ _ hrec
            cases found with
            | false =>
              simp only [Bool.not_false, if_pos, Option.some.injEq, Prod.mk.injEq] at hdel
              obtain ⟨rfl, rfl, rfl⟩ := hdel
              exact hx1
            | true =>
              simp only [Bool.not_true, Bool.false_eq_true, if_false,
                Option.some.injEq, Prod.mk.injEq] at hdel
              obtain ⟨rfl, rfl, rfl⟩ := hdel
              exact (hx1.trans (extends_append H1 [n])).set_fresh
                (le_trans hx1.1 (by simp)) _
        · split at hdel
          · simp only [Option.some.injEq, Prod.mk.injEq] at hdel
            obtain ⟨rfl, rfl, rfl⟩ := hdel
            exact extends_refl H
          · split at hdel
            · exact absurd hdel (by simp)
            · rename_i H1 rep child hrec
              split at hdel
              · exact absurd hdel (by simp)
              · rename_i rn hrn
                simp only [Option.some.injEq, Prod.mk.injEq] at hdel
                obtain ⟨rfl, rfl, rfl⟩ := hdel
                have hx1 : Extends H H1 := hDeleteLeftmost_extends fuel H _ _ _ _ hrec
                exact (hx1.trans (extends_append H1 [rn])).set_fresh
                  (le_trans hx1.1 (by simp)) _

/-- Reading a tree out of the heap only looks at addresses reachable from
the root, so a heap extension does not change it. -/
theorem readTree_extends : ∀ (g : Nat) (H H' : Heap V) (a : Nat),
    Extends H H' → Closed H → a < H.length →
    readTree g H' a = readTree g H a := by
  intro g
  induction g with
  | zero => intro H H' a _ _ _; rfl
  | succ g ih =>
    intro H H' a hx hcl ha
    by_cases ha0 : a = 0
    · simp [readTree, ha0]
    · simp only [readTree, if_neg ha0, hx.2 a ha]
      rcases hn : H[a]? with _ | n
      · simp
      · have hmem : n ∈ H := by
          obtain ⟨hlt, heq⟩ := List.getElem?_eq_some.mp hn
          exact heq ▸ List.getElem_mem hlt
        have e : ∀ i : Fin 8, readTree g H' (n.children i) = readTree g H (n.children i) :=
          fun i => ih H H' _ hx hcl (hcl n hmem i)
        simp only [e]

theorem hLookupLowLevel_extends : ∀ (g : Nat) (H H' : Heap V) (a ph h : Nat),
    Extends H H' → Closed H → a < H.length →
    hLookupLowLevel g H' a ph h = hLookupLowLevel g H a ph h := by
  intro g
  induction g with
  | zero => intro H H' a ph h _ _ _; rfl
  | succ g ih =>
    intro H H' a ph h hx hcl ha
    by_cases ha0 : a = 0
    · simp [hLookupLowLevel, ha0]
    · simp only [hLookupLowLevel, if_neg ha0, hx.2 a ha]
      rcases hn : H[a]? with _ | n
      · rfl
      · have hmem : n ∈ H := by
          obtain ⟨hlt, heq⟩ := List.getElem?_eq_some.mp hn
          exact heq ▸ List.getElem_mem hlt
        show (if h ≠ n.hash then hLookupLowLevel g H' (n.children (digit ph)) (ph >>> 3) h
            else some n.value) =
          (if h ≠ n.hash then hLookupLowLevel g H (n.children (digit ph)) (ph >>> 3) h
            else some n.value)
        by_cases hne : h = n.hash
        · rw [if_neg (by simp [hne]), if_neg (by simp [hne])]
        · rw [if_pos hne, if_pos hne]
          exact ih H H' _ _ _ hx hcl (hcl n hmem _)

theorem hSize_extends {H H' : Heap V} (hx : Extends H H') {a : Nat}
    (ha : a < H.length) : hSize H' a = hSize H a := by
  simp only [hSize, hx.2 a ha]

/-- C3: deriving a new version from the map rooted at `a` by `Set` or
`Delete` mutates no node reachable from it — every address of the
original heap still holds the very same node — and consequently every
observable of the original handle (the denoted tree, every `Lookup`, and
`Size`) is unchanged. -/
theorem derive_preserves_original (H : Heap V) (a : Nat) (hcl : Closed H)
    (ha : a < H.length) :
    (∀ (fuel ph h : Nat) (k : String) (v : V) (H' : Heap V) (b : Nat),
      hSetLowLevel fuel H a ph h k v = some (H', b) →
      (∀ j, j < H.length → H'[j]? = H[j]?) ∧
      (∀ g, readTree g H' a = readTree g H a) ∧
      (∀ g ph2 h2 : Nat, hLookupLowLevel g H' a ph2 h2 = hLookupLowLevel g H a ph2 h2) ∧
      hSize H' a = hSize H a) ∧
    (∀ (fuel ph h : Nat) (H' : Heap V) (b : Nat) (fd : Bool),
      hDeleteLowLevel fuel H a ph h = some (H', b, fd) →
      (∀ j, j < H.length → H'[j]? = H[j]?) ∧
      (∀ g, readTree g H' a = readTree g H a) ∧
      (∀ g ph2 h2 : Nat, hLookupLowLevel g H' a ph2 h2 = hLookupLowLevel g H a ph2 h2) ∧
      hSize H' a = hSize H a) := by
  constructor
  · intro fuel ph h k v H' b hset
    have hx := hSetLowLevel_extends fuel H a ph h k v H' b hset
    exact ⟨hx.2, fun g => readTree_extends g H H' a hx hcl ha,
      fun g ph2 h2 => hLookupLowLevel_extends g H H' a ph2 h2 hx hcl ha,
      hSize_extends hx ha⟩
  · intro fuel ph h H' b fd hdel
    have hx := hDeleteLowLevel_extends fuel H a ph h H' b fd hdel
    exact ⟨hx.2, fun g => readTree_extends g H H' a hx hcl ha,
      fun g ph2 h2 => hLookupLowLevel_extends g H H' a ph2 h2 hx hcl ha,
      hSize_extends hx ha⟩

theorem derive_preserves_original_witness :
    ([hSentinel (V := Nat), ⟨1, 5, "k", some 7, fun _ => 0⟩] : Heap Nat)[0]? =
      ([hSentinel (V := Nat)] : Heap Nat)[0]? := by
  have h := (derive_preserves_original [hSentinel (V := Nat)] 0 (by decide) (by decide)).1
    1 5 5 "k" 7 [hSentinel (V := Nat), ⟨1, 5, "k", some 7, fun _ => 0⟩] 1 rfl
  exact h.1 0 (by decide)

/-! ## C7: deleting an absent key copies nothing -/

/-- If no entry stores hash `h`, `deleteLowLevel` returns the input tree
itself with `found = false` at every level. -/
theorem deleteLowLevel_absent : ∀ (t : Tree V) (ph h : Nat), h ∉ hashesOf t →
    deleteLowLevel t ph h = some (t, false) := by
  intro t
  induction t with
  | nil => intro ph h _; rfl
  | node c h0 k0 v0 ch ih =>
    intro ph h hmem
    simp only [hashesOf, Multiset.mem_cons, not_or, Multiset.mem_sum] at hmem
    obtain ⟨hne, hnotsum⟩ := hmem
    have hni : h ∉ hashesOf (ch (digit ph)) :=
      fun hc => hnotsum ⟨_, Finset.mem_univ _, hc⟩
    simp only [deleteLowLevel, if_pos hne, ih _ _ h hni, Bool.not_false, if_pos]

/-- A not-found heap delete allocates nothing and returns the original
root address: the ancestor path is never copied. -/
theorem hDeleteLowLevel_not_found : ∀ (fuel : Nat) (H : Heap V) (a ph h : Nat)
    (H' : Heap V) (b : Nat),
    hDeleteLowLevel fuel H a ph h = some (H', b, false) → H' = H ∧ b = a := by
  intro fuel
  induction fuel with
  | zero => intro H a ph h H' b hdel; simp [hDeleteLowLevel] at hdel
  | succ fuel ih =>
    intro H a ph h H' b hdel
    by_cases ha : a = 0
    · simp only [hDeleteLowLevel, if_pos ha, Option.some.injEq, Prod.mk.injEq] at hdel
      exact ⟨hdel.1.symm, hdel.2.1.symm⟩
    · simp only [hDeleteLowLevel, if_neg ha] at hdel
      split at hdel
      · exact absurd hdel (by simp)
      · rename_i n hn
        split at hdel
        · split at hdel
          · exact absurd hdel (by simp)
          · rename_i H1 child found hrec
            cases found with
            | false =>
              simp only [Bool.not_false, if_pos, Option.some.injEq, Prod.mk.injEq] at hdel
              obtain ⟨rfl, rfl, -⟩ := hdel
              exact ⟨(ih _ _ _ _ _ _ hrec).1, rfl⟩
            | true =>
              simp only [Bool.not_true, Bool.false_eq_true, if_false,
                Option.some.injEq, Prod.mk.injEq] at hdel
              exact absurd hdel.2.2 (by simp)
        · split at hdel
          · simp only [Option.some.injEq, Prod.mk.injEq] at hdel
            exact absurd hdel.2.2 (by simp)
          · split at hdel
            · exact absurd hdel (by simp)
            · rename_i H1 rep child hrec
              split at hdel
              · exact absurd hdel (by simp)
              · rename_i rn hrn
                simp only [Option.some.injEq, Prod.mk.injEq] at hdel
                exact absurd hdel.2.2 (by simp)

/-- Destructor for a successful `readTree` at a non-sentinel address. -/
theorem readTree_some_node {g : Nat} {H : Heap V} {a : Nat} {t : Tree V}
    (h : readTree (g + 1) H a = some t) (ha : a ≠ 0) :
    ∃ (n : HNode V) (v : V) (cvec : Fin 8 → Tree V),
      H[a]? = some n ∧ n.value = some v ∧
      (∀ i : Fin 8, readTree g H (n.children i) = some (cvec i)) ∧
      t = .node n.count n.hash n.key v cvec := by
  simp only [readTree, if_neg ha] at h
  split at h
  · exact absurd h (by simp)
  · rename_i n hn
    split at h
    · exact absurd h (by simp)
    · rename_i v hv
      rcases h0 : readTree g H (n.children 0) with _ | c0 <;> rw [h0] at h
      · exact absurd h (by simp)
      rcases h1 : readTree g H (n.children 1) with _ | c1 <;>
        simp only [h1, Option.some_bind] at h
      · exact absurd h (by simp)
      rcases h2 : readTree g H (n.children 2) with _ | c2 <;>
        simp only [h2, Option.some_bind] at h
      · exact absurd h (by simp)
      rcases h3 : readTree g H (n.children 3) with _ | c3 <;>
        simp only [h3, Option.some_bind] at h
      · exact absurd h (by simp)
      rcases h4 : readTree g H (n.children 4) with _ | c4 <;>
        simp only [h4, Option.some_bind] at h
      · exact absurd h (by simp)
      rcases h5 : readTree g H (n.children 5) with _ | c5 <;>
        simp only [h5, Option.some_bind] at h
      · exact absurd h (by simp)
      rcases h6 : readTree g H (n.children 6) with _ | c6 <;>
        simp only [h6, Option.some_bind] at h
      · exact absurd h (by simp)
      rcases h7 : readTree g H (n.children 7) with _ | c7 <;>
        simp only [h7, Option.some_bind] at h
      · exact absurd h (by simp)
      refine ⟨n, v, ![c0, c1, c2, c3, c4, c5, c6, c7], hn, hv, ?_, ?_⟩
      · intro ⟨iv, hi⟩
        interval_cases iv
        · exact h0
        · exact h1
        · exact h2
        · exact h3
        · exact h4
        · exact h5
        · exact h6
        · exact h7
      · exact (Option.some.inj h).symm

/-- Deleting a hash absent from the tree denoted by `a` leaves the heap
untouched and returns the original address with `found = false`. -/
theorem hDelete_absent : ∀ (g : Nat) (H : Heap V) (a : Nat) (t : Tree V) (ph h : Nat),
    readTree g H a = some t → h ∉ hashesOf t →
    hDeleteLowLevel g H a ph h = some (H, a, false) := by
  intro g
  induction g with
  | zero => intro H a t ph h hread _; simp [readTree] at hread
  | succ g ih =>
    intro H a t ph h hread hmem
    by_cases ha : a = 0
    · simp [hDeleteLowLevel, ha]
    · obtain ⟨n, v, cvec, hn, hv, hreads, rfl⟩ := readTree_some_node hread ha
      simp only [hashesOf, Multiset.mem_cons, not_or, Multiset.mem_sum] at hmem
      obtain ⟨hne, hnotsum⟩ := hmem
      have hni : h ∉ hashesOf (cvec (digit ph)) :=
        fun hc => hnotsum ⟨_, Finset.mem_univ _, hc⟩
      have hrec := ih H (n.children (digit ph)) (cvec (digit ph)) (ph >>> 3) h
        (hreads _) hni
      simp only [hDeleteLowLevel, if_neg ha, hn, if_pos hne, hrec,
        Bool.not_false, if_pos]

/-- C7: if no entry of the map stores `hash(k)`, `Delete k` returns the
original map handle itself: at the value level the same tree with
`changed = false` at every level, and at the heap level the unchanged heap
(zero allocation) and the original root address. -/
theorem delete_absent_no_copy :
    (∀ (m : Tree V) (k : String), hashKey k ∉ hashesOf m → m.delete k = some m) ∧
    (∀ (m : Tree V) (ph h : Nat), h ∉ hashesOf m →
      deleteLowLevel m ph h = some (m, false)) ∧
    (∀ (g : Nat) (H : Heap V) (a : Nat) (m : Tree V) (ph h : Nat),
      readTree g H a = some m → h ∉ hashesOf m →
      hDeleteLowLevel g H a ph h = some (H, a, false)) ∧
    (∀ (fuel : Nat) (H H' : Heap V) (a ph h b : Nat),
      hDeleteLowLevel fuel H a ph h = some (H', b, false) → H' = H ∧ b = a) := by
  refine ⟨?_, deleteLowLevel_absent, hDelete_absent,
    fun fuel H H' a ph h b hdel => hDeleteLowLevel_not_found fuel H a ph h H' b hdel⟩
  intro m k hmem
  rw [Tree.delete, deleteLowLevel_absent m _ _ hmem]
  rfl

theorem delete_absent_no_copy_witness :
    ((newMap (V := Nat)).set "a" 1).delete "b" =
      some ((newMap (V := Nat)).set "a" 1) :=
  (delete_absent_no_copy (V := Nat)).1 _ "b" (by decide)

/-! ## C10: deleting the last entry yields the canonical sentinel -/

/-- C10: deleting the only entry of a one-entry map returns the canonical
sentinel itself (`nilMap`, address `0` at the heap level), not merely a
structurally empty tree, and any count-correct map of size `0` satisfies
`IsNil`. -/
theorem delete_last_entry_sentinel :
    (∀ (k : String) (v : V), (newMap.set k v).delete k = some newMap) ∧
    (∀ t : Tree V, CountOk t → t.size = 0 → t.isNil = true) ∧
    (∀ {m m' : Tree V} {k : String}, WF m → m.delete k = some m' →
      m'.size = 0 → m'.isNil = true) ∧
    (∀ (h : Nat) (k : String) (v : V),
      ∃ H' : Heap V, hSetLowLevel 1 [hSentinel] 0 h h k v = some (H', 1) ∧
        hDeleteLowLevel 1 H' 1 h h = some (H', 0, true)) := by
  refine ⟨?_, ?_, ?_, ?_⟩
  · intro k v
    show (deleteLowLevel (setLowLevel .nil (hashKey k) (hashKey k) k v)
      (hashKey k) (hashKey k)).map (·.1) = some .nil
    show (deleteLowLevel (.node 1 (hashKey k) k v fun _ => .nil)
      (hashKey k) (hashKey k)).map (·.1) = some .nil
    simp [deleteLowLevel, Tree.isLeaf, Tree.size]
  · intro t hok hsz
    cases t with
    | nil => rfl
    | node c h k v ch =>
      obtain ⟨hc, -⟩ := hok
      simp [Tree.size] at hsz
      omega
  · intro m m' k hwf hdel hsz
    have hwf' := wf_delete hwf hdel
    cases m' with
    | nil => rfl
    | node c h k2 v ch =>
      obtain ⟨⟨hc, -⟩, -⟩ := hwf'
      simp [Tree.size] at hsz
      omega
  · intro h k v
    refine ⟨[hSentinel, ⟨1, h, k, some v, fun _ => 0⟩], rfl, ?_⟩
    have hne : (1 : Nat) ≠ 0 := by norm_num
    simp only [hDeleteLowLevel, if_neg hne]
    have hn : ([hSentinel, ⟨1, h, k, some v, fun _ => 0⟩] : Heap V)[1]? =
        some ⟨1, h, k, some v, fun _ => 0⟩ := rfl
    simp only [hn, ne_eq, ite_not, eq_self_iff_true, if_true]

theorem delete_last_entry_sentinel_witness :
    ((newMap (V := Nat)).set "a" 7).delete "a" = some newMap ∧
    (newMap (V := Nat)).isNil = true :=
  ⟨(delete_last_entry_sentinel (V := Nat)).1 "a" 7,
   (delete_last_entry_sentinel (V := Nat)).2.1 newMap trivial rfl⟩

/-! ## C8: ForEach and Keys -/

theorem shiftRight_step (h d : Nat) : (h >>> (3 * d)) >>> 3 = h >>> (3 * (d + 1)) := by
  rw [Nat.shiftRight_eq_div_pow, Nat.shiftRight_eq_div_pow, Nat.shiftRight_eq_div_pow,
    Nat.div_div_eq_div_mul, ← pow_add]
  ring_nf

/-- The traversal visits exactly `Size` entries (under count correctness). -/
theorem toList_length : ∀ {t : Tree V}, CountOk t → (t.toList).length = t.size := by
  intro t
  induction t with
  | nil => intro _; rfl
  | node c h k v ch ih =>
    intro hok
    obtain ⟨hc, hch⟩ := hok
    simp only [Tree.toList, List.length_cons, List.length_flatten, List.map_map]
    have hmap : List.map (List.length ∘ fun i =>
        if (ch i).isNil then ([] : List (String × V)) else (ch i).toList)
        (List.finRange 8) = List.map (fun i => (ch i).size) (List.finRange 8) := by
      refine List.map_congr_left fun i _ => ?_
      by_cases hni : (ch i).isNil
      · simp only [Function.comp_apply, if_pos hni, List.length_nil]
        rw [isNil_iff.mp hni]
        rfl
      · simp only [Function.comp_apply, if_neg hni]
        exact ih i (hch i)
    rw [hmap, ← Fin.sum_univ_def fun i => (ch i).size]
    simp only [Tree.size, hc, sumSizes]

theorem coe_map_flatten {α β γ : Type} (f : β → γ) (g : α → List β) :
    ∀ l : List α, (↑(((l.map g).flatten).map f) : Multiset γ) =
      (l.map fun a => (↑((g a).map f) : Multiset γ)).sum := by
  intro l
  induction l with
  | nil => rfl
  | cons a l ih =>
    simp only [List.map_cons, List.flatten_cons, List.map_append, ← Multiset.coe_add,
      ih, List.sum_cons]

/-- The multiset of hashes of the visited keys is exactly the multiset of
stored hashes (under hash correctness). -/
theorem toList_hashes : ∀ {t : Tree V}, HashOk t →
    (↑((t.toList).map fun kv => hashKey kv.1) : Multiset Nat) = hashesOf t := by
  intro t
  induction t with
  | nil => intro _; rfl
  | node c h k v ch ih =>
    intro hok
    obtain ⟨hk, hch⟩ := hok
    show (↑((((k, v) :: ((List.finRange 8).map fun i =>
      if (ch i).isNil then ([] : List (String × V)) else (ch i).toList).flatten).map
        fun kv => hashKey kv.1) : List Nat) : Multiset Nat) = hashesOf (.node c h k v ch)
    rw [List.map_cons, ← Multiset.cons_coe, coe_map_flatten, hashesOf]
    congr 1
    · exact hk.symm
    · rw [Fin.sum_univ_def fun i => hashesOf (ch i)]
      rw [show List.map (fun a => (↑((if (ch a).isNil then ([] : List (String × V))
            else (ch a).toList).map fun kv => hashKey kv.1) : Multiset Nat))
          (List.finRange 8) =
          List.map (fun a => hashesOf (ch a)) (List.finRange 8) from ?_]
      refine List.map_congr_left fun i _ => ?_
      by_cases hni : (ch i).isNil
      · rw [if_pos hni, isNil_iff.mp hni]
        rfl
      · rw [if_neg hni]
        exact ih i (hch i)

theorem hash_mem_of_mem_toList {t : Tree V} {k : String} {v : V} (hok : HashOk t)
    (hmem : (k, v) ∈ t.toList) : hashKey k ∈ hashesOf t := by
  rw [← toList_hashes hok]
  exact Multiset.mem_coe.mpr (List.mem_map_of_mem _ hmem)

theorem nodup_child {c h : Nat} {k : String} {v : V} {ch : Fin 8 → Tree V}
    (hnd : (hashesOf (Tree.node c h k v ch)).Nodup) (i : Fin 8) :
    (hashesOf (ch i)).Nodup := by
  simp only [hashesOf] at hnd
  have h1 := (Multiset.nodup_cons.mp hnd).2
  rw [sum_eq_add_erase hashesOf ch i] at h1
  exact (Multiset.nodup_add.mp h1).1

/-- Every visited entry is `Lookup`-able (under well-formedness). -/
theorem lookup_of_mem_toList : ∀ (t : Tree V) (d pre : Nat) (k : String) (v : V),
    Placement t d pre → pre < 8 ^ d → HashOk t → (hashesOf t).Nodup →
    (k, v) ∈ t.toList →
    lookupLowLevel t (hashKey k >>> (3 * d)) (hashKey k) = some v := by
  intro t
  induction t with
  | nil => intro d pre k v _ _ _ _ hmem; simp [Tree.toList] at hmem
  | node c h0 k0 v0 ch ih =>
    intro d pre k v hpl hlt hok hnd hmem
    have hchpl : ∀ i : Fin 8, Placement (ch i) (d + 1) (pre + i.val * 8 ^ d) := hpl.2
    obtain ⟨hk0, hchh⟩ := hok
    simp only [Tree.toList, List.mem_cons] at hmem
    rcases hmem with heq | hmem
    · obtain ⟨rfl, rfl⟩ := Prod.mk.injEq .. |>.mp heq
      simp [lookupLowLevel, hk0]
    · rw [List.mem_flatten] at hmem
      obtain ⟨li, hli, hmem2⟩ := hmem
      rw [List.mem_map] at hli
      obtain ⟨i, -, rfl⟩ := hli
      by_cases hni : (ch i).isNil
      · rw [if_pos hni] at hmem2
        simp at hmem2
      · rw [if_neg hni] at hmem2
        have hmemh : hashKey k ∈ hashesOf (ch i) :=
          hash_mem_of_mem_toList (hchh i) hmem2
        have hmem_t : hashKey k ∈ hashesOf (Tree.node c h0 k0 v0 ch) := by
          simp only [hashesOf, Multiset.mem_cons, Multiset.mem_sum]
          exact Or.inr ⟨i, Finset.mem_univ _, hmemh⟩
        have hmod : hashKey k % 8 ^ d = pre :=
          Placement.mem_mod hpl hlt _ hmem_t
        have hp : OnPath d pre (hashKey k) (hashKey k >>> (3 * d)) := ⟨rfl, hmod, hlt⟩
        have hieq : i = digit (hashKey k >>> (3 * d)) := mem_child_eq_digit hchpl hp hmemh
        have hne : ¬ hashKey k = h0 := by
          intro hcon
          have h2 := (Multiset.nodup_cons.mp (by simpa only [hashesOf] using hnd)).1
          exact h2 (by
            rw [← hcon]
            exact Multiset.mem_sum.mpr ⟨i, Finset.mem_univ _, hmemh⟩)
        simp only [lookupLowLevel, if_pos hne]
        rw [← hieq, shiftRight_step]
        exact ih i (d + 1) (pre + i.val * 8 ^ d) k v (hchpl i) (child_pre_lt i hlt)
          (hchh i) (nodup_child hnd i) hmem2

/-- Every `Lookup`-able value is visited, stored under a key with the
looked-up key's hash. -/
theorem mem_toList_of_lookup : ∀ (t : Tree V) (ph h : Nat) (v : V), HashOk t →
    lookupLowLevel t ph h = some v → ∃ k', hashKey k' = h ∧ (k', v) ∈ t.toList := by
  intro t
  induction t with
  | nil => intro ph h v _ hl; simp [lookupLowLevel] at hl
  | node c h0 k0 v0 ch ih =>
    intro ph h v hok hl
    obtain ⟨hk0, hchh⟩ := hok
    by_cases hne : h = h0
    · subst hne
      simp only [lookupLowLevel, ne_eq, ite_not, eq_self_iff_true, if_true,
        Option.some.injEq] at hl
      subst hl
      exact ⟨k0, hk0.symm, by simp [Tree.toList]⟩
    · simp only [lookupLowLevel, if_pos hne] at hl
      obtain ⟨k', hk', hmem⟩ := ih (digit ph) (ph >>> 3) h v (hchh _) hl
      refine ⟨k', hk', ?_⟩
      simp only [Tree.toList, List.mem_cons]
      right
      rw [List.mem_flatten]
      refine ⟨if (ch (digit ph)).isNil then [] else (ch (digit ph)).toList,
        List.mem_map_of_mem _ (List.mem_finRange _), ?_⟩
      by_cases hni : (ch (digit ph)).isNil
      · exfalso
        rw [isNil_iff.mp hni] at hmem
        simp [Tree.toList] at hmem
      · rw [if_neg hni]
        exact hmem

theorem take_succ_set {α : Type} : ∀ (arr : List α) (i : Nat) (x : α), i < arr.length →
    (arr.set i x).take (i + 1) = arr.take i ++ [x] := by
  intro arr
  induction arr with
  | nil => intro i x h; simp at h
  | cons a arr ih =>
    intro i x h
    cases i with
    | zero => simp
    | succ j =>
      simp only [List.set_cons_succ, List.take_succ_cons, List.cons_append]
      rw [ih j x (by simpa using h)]

/-- The write loop of `Keys`: with enough room, it fills the slice with
the visited keys in order. -/
theorem keys_foldl : ∀ (l : List (String × V)) (arr : List String) (i : Nat),
    arr.length = i + l.length →
    l.foldl
      (fun acc kv =>
        match acc with
        | none => none
        | some (arr, i) => if i < arr.length then some (arr.set i kv.1, i + 1) else none)
      (some (arr, i)) = some (arr.take i ++ l.map Prod.fst, i + l.length) := by
  intro l
  induction l with
  | nil =>
    intro arr i hlen
    simp only [List.length_nil] at hlen
    have htake : arr.take i = arr := by
      rw [show i = arr.length by omega]
      exact List.take_length arr
    simp only [List.foldl_nil, List.map_nil, List.append_nil, List.length_nil,
      Nat.add_zero, htake]
  | cons kv l ih =>
    intro arr i hlen
    have hi : i < arr.length := by rw [hlen, List.length_cons]; omega
    simp only [List.foldl_cons, if_pos hi]
    rw [ih (arr.set i kv.1) (i + 1) (by rw [List.length_set, hlen, List.length_cons]; omega)]
    rw [take_succ_set arr i kv.1 hi]
    simp only [List.map_cons, List.length_cons, List.append_assoc, List.singleton_append]
    congr 2
    omega

/-- On a count-correct map, `Keys` succeeds and returns the visited keys
in traversal order. -/
theorem keys_eq {t : Tree V} (hok : CountOk t) :
    t.keys = some ((t.toList).map Prod.fst) := by
  rw [Tree.keys, keys_foldl t.toList (List.replicate t.size "") 0
    (by rw [List.length_replicate, toList_length hok]; omega)]
  simp

/-- C8: on a well-formed map, `ForEach` visits exactly the stored entries
— every visited pair is `Lookup`-consistent and every `Lookup` hit is
visited — no key is visited twice, and `Keys` returns a duplicate-free
slice whose length is `Size`. -/
theorem foreach_keys_complete (m : Tree V) (hwf : WF m) :
    m.keys = some ((m.toList).map Prod.fst) ∧
    ((m.toList).map Prod.fst).Nodup ∧
    (m.toList).length = m.size ∧
    (∀ (k : String) (v : V), (k, v) ∈ m.toList → m.lookup k = some v) ∧
    (∀ (k : String) (v : V), m.lookup k = some v →
      ∃ k', hashKey k' = hashKey k ∧ (k', v) ∈ m.toList) := by
  obtain ⟨hcnt, hhash, hpl, hnd⟩ := hwf
  refine ⟨keys_eq hcnt, ?_, toList_length hcnt, ?_, ?_⟩
  · have h1 : ((m.toList).map fun kv => hashKey kv.1).Nodup := by
      rw [← Multiset.coe_nodup, toList_hashes hhash]
      exact hnd
    have h2 : ((m.toList).map (hashKey ∘ Prod.fst)).Nodup := by
      convert h1 using 2
    rw [← List.map_map] at h2
    exact h2.of_map hashKey
  · intro k v hmem
    have := lookup_of_mem_toList m 0 0 k v hpl (by norm_num) hhash hnd hmem
    simpa [Tree.lookup] using this
  · intro k v hl
    exact mem_toList_of_lookup m _ _ v hhash hl

theorem foreach_keys_complete_witness :
    ((newMap (V := Nat)).set "a" 1).keys =
      some (((((newMap (V := Nat)).set "a" 1)).toList).map Prod.fst) ∧
    ((((newMap (V := Nat)).set "a" 1)).toList).length =
      ((newMap (V := Nat)).set "a" 1).size :=
  ⟨(foreach_keys_complete _ (by decide)).1,
   (foreach_keys_complete _ (by decide)).2.2.1⟩

end PS
